import Mathlib

/-!
Shallow embedding of the decision-interpretation and orchestration core of
`app/agent/llm_agent.py`, together with theorems checking the natural-language
specification against it.

Modelling conventions:
* Python strings are `String` / `List Char` (ASCII behaviour; the agent only
  ever manipulates ASCII markers such as braces, backticks, digits and signs).
* Python `float` values are modelled exactly by `PyFloat` (a rational number,
  or one of the special values `inf`, `-inf`, `nan`).  Rounding of decimal
  literals to binary doubles is immaterial to every property proved here,
  since the code never compares or post-processes the numeric values.
* Python `None` and JSON `null` are the same value; `JVal.jnull` plays both
  roles, exactly as in the source.
* Python dicts are association lists in insertion order; `dictSet` implements
  the update-in-place-or-append semantics of `d[k] = v`.
* The two external collaborators (Ollama chat and the MCP tool session) are
  modelled as oracles: streams of responses indexed by a call counter.  A
  model response is either a raised exception or a text whose
  extract-and-parse outcome is an optional JSON value; a tool response is
  either a raised exception or an observation string.
-/

set_option autoImplicit false

namespace AgentModel

/-! ## Basic character utilities (Python semantics) -/

/-- The characters Python `str.strip()` removes (ASCII whitespace). -/
def isPyWs (c : Char) : Bool :=
  c == ' ' || c == '\t' || c == '\n' || c == '\r' || c == '\x0b' || c == '\x0c'

/-- Python `s.strip()`. -/
def pyStrip (l : List Char) : List Char :=
  ((l.dropWhile isPyWs).reverse.dropWhile isPyWs).reverse

/-- Numeric value of a list of decimal digit characters. -/
def digitsToNat (l : List Char) : Nat :=
  l.foldl (fun a c => a * 10 + (c.toNat - '0'.toNat)) 0

/-- Parser for an optional leading sign, returning the sign as `1` or `-1`
and the remaining characters (shared shape of Python number parsing). -/
def parseSign (l : List Char) : Int × List Char :=
  match l with
  | c :: cs => if c == '+' then (1, cs) else if c == '-' then (-1, cs) else (1, l)
  | [] => (1, [])

/-- Worker for `digRun`: collects further digits, allowing a single
underscore between two digits, as Python numeric literals do. -/
def digRunGo : List Char → List Char → List Char × List Char
  | acc, [] => (acc.reverse, [])
  | acc, c :: cs =>
    if c.isDigit then digRunGo (c :: acc) cs
    else if c == '_' then
      match cs with
      | d :: cs2 => if d.isDigit then digRunGo (d :: acc) cs2 else (acc.reverse, c :: cs)
      | [] => (acc.reverse, [c])
    else (acc.reverse, c :: cs)

/-- A run of decimal digits with optional single underscores between digits
(the digit-group syntax accepted by Python `int()` and `float()`); returns
the digits (underscores dropped) and the rest, or `none` when the input does
not start with a digit. -/
def digRun (l : List Char) : Option (List Char × List Char) :=
  match l with
  | c :: cs => if c.isDigit then some (digRunGo [c] cs) else none
  | [] => none

/-- Model of Python `int(s)` (base 10, ASCII): optional surrounding
whitespace, optional sign, then an underscore-grouped digit run spanning the
whole remainder. -/
def pyInt (s : String) : Option Int :=
  let l := pyStrip s.data
  let sr := parseSign l
  match digRun sr.2 with
  | some (ds, r) => if r.isEmpty then some (sr.1 * (digitsToNat ds : Int)) else none
  | none => none

/-- A Python float value: an exact rational, or a special value. -/
inductive PyFloat where
  | num (q : ℚ)
  | inf
  | ninf
  | nan
  deriving DecidableEq

/-- Rational value of an integer digit part and a fractional digit part. -/
def ratOfParts (ds fs : List Char) : ℚ :=
  (digitsToNat ds : ℚ) + (digitsToNat fs : ℚ) / (10 : ℚ) ^ fs.length

/-- Mantissa of a Python float literal: `digits [. digits]` or `. digits`,
with underscore digit grouping; returns its value and the rest. -/
def mantissaParse (l : List Char) : Option (ℚ × List Char) :=
  match digRun l with
  | some (ds, r) =>
    match r with
    | [] => some (ratOfParts ds [], [])
    | c :: r2 =>
      if c == '.' then
        match digRun r2 with
        | some (fs, r3) => some (ratOfParts ds fs, r3)
        | none => some (ratOfParts ds [], r2)
      else some (ratOfParts ds [], c :: r2)
  | none =>
    match l with
    | c :: r2 =>
      if c == '.' then
        match digRun r2 with
        | some (fs, r3) => some (ratOfParts [] fs, r3)
        | none => none
      else none
    | [] => none

/-- Numeric (non-special) part of Python `float(s)` after sign removal:
mantissa with an optional exponent, spanning the whole remainder. -/
def pyFloatNum (l : List Char) : Option ℚ :=
  match mantissaParse l with
  | none => none
  | some (q, r) =>
    match r with
    | [] => some q
    | e :: r1 =>
      if e == 'e' || e == 'E' then
        let sr := parseSign r1
        match digRun sr.2 with
        | some (ds, r3) =>
          if r3.isEmpty then some (q * (10 : ℚ) ^ (sr.1 * (digitsToNat ds : Int))) else none
        | none => none
      else none

/-- Model of Python `float(s)` (ASCII): optional surrounding whitespace,
optional sign, then a numeric literal or one of the words `inf`, `infinity`,
`nan` (case-insensitive).  Values are exact rationals; the overflow-to-inf
behaviour of huge exponents is not modelled, which is immaterial to every
property proved here. -/
def pyFloat (s : String) : Option PyFloat :=
  let l := pyStrip s.data
  let sr := parseSign l
  let lw := sr.2.map Char.toLower
  if lw = "inf".data ∨ lw = "infinity".data then
    some (if sr.1 = 1 then PyFloat.inf else PyFloat.ninf)
  else if lw = "nan".data then some PyFloat.nan
  else
    match pyFloatNum sr.2 with
    | some q => some (PyFloat.num ((sr.1 : ℚ) * q))
    | none => none

/-! ## JSON values and Python dict operations -/

/-- A parsed JSON value as produced by `json.loads` (also the domain of
Python scalars handled by the agent; `jnull` is Python `None`). -/
inductive JVal where
  | jnull
  | jbool (b : Bool)
  | jint (n : Int)
  | jfloat (x : PyFloat)
  | jstr (s : String)
  | jarr (xs : List JVal)
  | jobj (kvs : List (String × JVal))

/-- Python `v is None` (recall that JSON `null` is Python `None`). -/
def JVal.isNull : JVal → Bool
  | JVal.jnull => true
  | _ => false

/-- Python `k in d` for an insertion-ordered dict. -/
def hasKey (kvs : List (String × JVal)) (k : String) : Bool :=
  kvs.any (fun kv => kv.1 == k)

/-- Python `d[k]` lookup (keys are unique in a real dict, so the first match
is the binding). -/
def dictGet? (kvs : List (String × JVal)) (k : String) : Option JVal :=
  (kvs.find? (fun kv => kv.1 == k)).map Prod.snd

/-- Python `d[k] = v`: update the existing binding in place, otherwise append. -/
def dictSet (kvs : List (String × JVal)) (k : String) (v : JVal) : List (String × JVal) :=
  if kvs.any (fun kv => kv.1 == k) then
    kvs.map (fun kv => if kv.1 == k then (k, v) else kv)
  else kvs ++ [(k, v)]

/-- Python `m.update(items)` applied binding by binding. -/
def dictUpdateMany (m : List (String × JVal)) (items : List (String × JVal)) :
    List (String × JVal) :=
  items.foldl (fun acc kv => dictSet acc kv.1 kv.2) m

/-! ## Decision normalization (`_coerce_numbers`, `_normalize_decision`) -/

/-- Python `any(c in v for c in ".eE")` from `_coerce_numbers`. -/
def hasDotEe (s : String) : Bool :=
  s.data.any (fun c => c == '.' || c == 'e' || c == 'E')

/-- Coercion of one argument value by `_coerce_numbers`: a string that
contains one of `.`/`e`/`E` is tried as a float, any other string as an int;
on failure the original value is kept; non-strings are untouched. -/
def coerce_val (v : JVal) : JVal :=
  match v with
  | JVal.jstr s =>
    if hasDotEe s then
      match pyFloat s with
      | some x => JVal.jfloat x
      | none => v
    else
      match pyInt s with
      | some n => JVal.jint n
      | none => v
  | _ => v

/-- `_coerce_numbers` applied to the `args` mapping of a tool decision. -/
def coerce_numbers (args : List (String × JVal)) : List (String × JVal) :=
  args.map (fun kv => (kv.1, coerce_val kv.2))

/-- The normalized decision: the tagged union produced by
`_normalize_decision`. -/
inductive NDecision where
  | final (s : String)
  | toolCall (name : String) (args : List (String × JVal))

/-- Flattening of a list-shaped `args` by `_normalize_decision`: successive
`merged.update(item)` over the dict items, later keys winning. -/
def mergeArgsList (xs : List JVal) : List (String × JVal) :=
  xs.foldl
    (fun m it =>
      match it with
      | JVal.jobj ikvs => dictUpdateMany m ikvs
      | _ => m)
    []

/-- `_normalize_decision`: top level must be an object; a `final` object must
have exactly that one key with a string value; a `tool` object must have a
string tool name and a dict (or list-of-dicts, flattened) `args`, whose
string values are then numerically coerced.  `none` models the raised
`ValueError`. -/
def normalize_decision (x : JVal) : Option NDecision :=
  match x with
  | JVal.jobj kvs =>
    if hasKey kvs "final" then
      match dictGet? kvs "final" with
      | some (JVal.jstr f) => if kvs.length == 1 then some (NDecision.final f) else none
      | _ => none
    else if hasKey kvs "tool" then
      let argsv :=
        match dictGet? kvs "args" with
        | some a => a
        | none => JVal.jobj []
      let argsv :=
        match argsv with
        | JVal.jarr xs => JVal.jobj (mergeArgsList xs)
        | a => a
      match dictGet? kvs "tool", argsv with
      | some (JVal.jstr n), JVal.jobj akvs => some (NDecision.toolCall n (coerce_numbers akvs))
      | _, _ => none
    else none
  | _ => none

/-! ## Numeric-literal scanning (`_NUM_RE`) and `_extract_two_numbers` -/

/-- Exponent part of a `_NUM_RE` match: `(?:[eE][-+]?\d+)?`, greedy; returns
the matched characters (possibly none) and the rest. -/
def matchExp (r : List Char) : List Char × List Char :=
  match r with
  | e :: rest =>
    if e == 'e' || e == 'E' then
      let sr :=
        match rest with
        | c :: cs => if c == '+' || c == '-' then ([c], cs) else (([] : List Char), rest)
        | [] => (([] : List Char), rest)
      let ds := sr.2.takeWhile Char.isDigit
      if ds.isEmpty then (([] : List Char), r)
      else (e :: sr.1 ++ ds, sr.2.dropWhile Char.isDigit)
    else (([] : List Char), r)
  | [] => (([] : List Char), r)

/-- Attempt to match `_NUM_RE` = `[-+]?\d*\.?\d+(?:[eE][-+]?\d+)?` at the
head of the input, with the backtracking semantics of the Python `re`
engine; returns the matched characters and the rest. -/
def matchNumAt (l : List Char) : Option (List Char × List Char) :=
  let sgn :=
    match l with
    | c :: cs => if c == '+' || c == '-' then ([c], cs) else (([] : List Char), l)
    | [] => (([] : List Char), l)
  let d1 := sgn.2.takeWhile Char.isDigit
  let r1 := sgn.2.dropWhile Char.isDigit
  let core : Option (List Char × List Char) :=
    match r1 with
    | c :: r2 =>
      if c == '.' then
        let f := r2.takeWhile Char.isDigit
        if ¬ f.isEmpty then some (d1 ++ '.' :: f, r2.dropWhile Char.isDigit)
        else if ¬ d1.isEmpty then some (d1, c :: r2) else none
      else if ¬ d1.isEmpty then some (d1, c :: r2) else none
    | [] => if ¬ d1.isEmpty then some (d1, []) else none
  match core with
  | none => none
  | some (mant, r) =>
    let ex := matchExp r
    some (sgn.1 ++ mant ++ ex.1, ex.2)

/-- Fuelled worker for `_NUM_RE.findall`: scan left to right, taking each
leftmost match and continuing after it, otherwise advancing one character.
Every match consumes at least one character, so fuel equal to the input
length never runs out. -/
def numFindallGo : Nat → List Char → List (List Char)
  | 0, _ => []
  | _, [] => []
  | fuel + 1, c :: cs =>
    match matchNumAt (c :: cs) with
    | some (m, rest) => m :: numFindallGo fuel rest
    | none => numFindallGo fuel cs

/-- `_NUM_RE.findall(text)`. -/
def numFindall (l : List Char) : List (List Char) :=
  numFindallGo l.length l

/-- `_extract_two_numbers`: the first two numeric literals of the text as
Python floats, or `(None, None)` when fewer than two are found (the
`float` calls on regex matches cannot fail, but the guarding `except` is
modelled faithfully). -/
def extract_two_numbers (s : String) : JVal × JVal :=
  match numFindall s.data with
  | n1 :: n2 :: _ =>
    match pyFloat (String.mk n1), pyFloat (String.mk n2) with
    | some f1, some f2 => (JVal.jfloat f1, JVal.jfloat f2)
    | _, _ => (JVal.jnull, JVal.jnull)
  | _ => (JVal.jnull, JVal.jnull)

/-! ## Argument canonicalization (`_canonicalize_args`) -/

/-- The accepted spellings for the first addend of `add_numbers`. -/
def aKeys : List String := ["a", "x", "left", "lhs", "num1", "number1", "first", "value1"]

/-- The accepted spellings for the second addend of `add_numbers`. -/
def bKeys : List String := ["b", "y", "right", "rhs", "num2", "number2", "second", "value2"]

/-- Python `s.lower()` (ASCII). -/
def strLower (s : String) : String :=
  String.mk (s.data.map Char.toLower)

/-- The lower-cased view `{str(k).lower(): v for k, v in args.items()}`. -/
def lowerDict (args : List (String × JVal)) : List (String × JVal) :=
  args.foldl (fun m kv => dictSet m (strLower kv.1) kv.2) []

/-- The inner `pick` of `_canonicalize_args`: the value of the first listed
key present in the lower-cased args, else Python `None`. -/
def pickVal (lower : List (String × JVal)) : List String → JVal
  | [] => JVal.jnull
  | k :: ks =>
    match dictGet? lower k with
    | some v => v
    | none => pickVal lower ks

/-- `_canonicalize_args`: alias resolution for `add_numbers` with numeric
backfill from the user text, the empty mapping for `say_hello`, and
passthrough for unknown tools. -/
def canonicalize_args (tool : String) (args : List (String × JVal)) (user_input : String) :
    List (String × JVal) :=
  if tool == "add_numbers" then
    let lower := lowerDict args
    let aVal0 := pickVal lower aKeys
    let bVal0 := pickVal lower bKeys
    let ab :=
      if aVal0.isNull || bVal0.isNull then
        let g := extract_two_numbers user_input
        (if aVal0.isNull then g.1 else aVal0, if bVal0.isNull then g.2 else bVal0)
      else (aVal0, bVal0)
    (if ab.1.isNull then [] else [("a", ab.1)]) ++ (if ab.2.isNull then [] else [("b", ab.2)])
  else if tool == "say_hello" then []
  else args

/-! ## Fence stripping and first-JSON-object extraction -/

/-- The backtick character (code point 96). -/
def btick : Char := Char.ofNat 96

/-- Fuelled worker for `FENCE_RE.sub("", s)` with
`FENCE_RE = ^(three backticks)(json)? | (three backticks)$` in multiline,
case-insensitive mode: at a line start, three backticks and an optional
`json` word are removed; before a line end, three backticks are removed;
otherwise the character is kept.  The line-start flag tracks the original
string, as regex anchors do.  Each step consumes at least one character, so
fuel equal to the length never runs out. -/
def fenceSubGo : Nat → Bool → List Char → List Char
  | 0, _, l => l
  | _ + 1, _, [] => []
  | fuel + 1, atStart, c :: cs =>
    if c == btick then
      match cs with
      | c2 :: c3 :: rest =>
        if c2 == btick && c3 == btick then
          if atStart then
            match rest with
            | j :: s :: o :: n :: rest2 =>
              if j.toLower == 'j' && s.toLower == 's' && o.toLower == 'o' && n.toLower == 'n' then
                fenceSubGo fuel false rest2
              else fenceSubGo fuel false rest
            | _ => fenceSubGo fuel false rest
          else if rest.isEmpty || rest.head? == some '\n' then fenceSubGo fuel false rest
          else c :: fenceSubGo fuel false cs
        else c :: fenceSubGo fuel (c == '\n') cs
      | _ => c :: fenceSubGo fuel (c == '\n') cs
    else c :: fenceSubGo fuel (c == '\n') cs

/-- `FENCE_RE.sub("", s)`. -/
def fenceSub (l : List Char) : List Char :=
  fenceSubGo l.length true l

/-- `_strip_fences_and_prose`: strip, remove fence markers, strip again,
then drop any prose before the first brace. -/
def strip_fences_and_prose (l : List Char) : List Char :=
  let s1 := pyStrip l
  let s2 := pyStrip (fenceSub s1)
  match s2.findIdx? (fun c => c == '{') with
  | some i => if 0 < i then s2.drop i else s2
  | none => s2

/-- The character scan of `_extract_first_json_object`: index, brace depth
and the recorded start index evolve exactly as in the source loop; the
result is the start index and the end index (one past the closing brace) of
the first balanced block, or `none` when the scan falls off the end. -/
def extractGo : List Char → Nat → Nat → Option Nat → Option (Nat × Nat)
  | [], _, _, _ => none
  | c :: cs, i, depth, start =>
    if c == '{' then
      extractGo cs (i + 1) (depth + 1) (if depth == 0 then some i else start)
    else if c == '}' then
      if 0 < depth then
        if depth == 1 then
          match start with
          | some s0 => some (s0, i + 1)
          | none => extractGo cs (i + 1) (depth - 1) start
        else extractGo cs (i + 1) (depth - 1) start
      else extractGo cs (i + 1) depth start
    else extractGo cs (i + 1) depth start

/-- `_extract_first_json_object`: strip fences and prose, then return the
slice spanning the first balanced brace block; `none` models the raised
`ValueError("No complete JSON object found")`. -/
def extract_first_json_object (s : String) : Option String :=
  let t := strip_fences_and_prose s.data
  match extractGo t 0 0 none with
  | some (a, b) => some (String.mk ((t.drop a).take (b - a)))
  | none => none

/-! ## The orchestration loop of `agent_run`

Each `ollama.chat` call and each `call_tool` call is a suspension point
answered by an oracle stream.  A model response is either a raised exception
or a text; the only thing `agent_run` does with a response text is
`_normalize_decision(parse_llm_json(raw))`, so a text is represented by its
extract-and-parse outcome, an `Option JVal` (with `none` for text in which
extraction or JSON parsing fails).  Prompt contents sent to the gateways do
not influence the oracle, which is universally quantified in every theorem,
so they are not tracked. -/

/-- One model-gateway response: a raised exception, or text that parses to
the given optional JSON value. -/
inductive MResp where
  | mraise
  | mtext (p : Option JVal)

/-- One tool-gateway response: a raised exception, or an observation string. -/
inductive TResp where
  | traise
  | tobs (s : String)

/-- The two oracle streams, indexed by per-gateway call counters. -/
structure Gw where
  model : Nat → MResp
  tool : Nat → TResp

/-- The syntactic position of a model-gateway call in `agent_run`, recorded
for trace-based properties. -/
inductive MPurpose where
  | pInitial
  | pInitialRepair
  | pUnknownRepair
  | pArgFix
  | pNext
  deriving DecidableEq

/-- The loop-local run state of `agent_run`, plus instrumentation: the two
call counters, the executed-iteration count, and the traces of tool
invocations and model calls. -/
structure St where
  mIdx : Nat
  tIdx : Nat
  steps : Nat
  iters : Nat
  sum_value : Option PyFloat
  greet_msg : Option String
  calls : List (String × List (String × JVal))
  mcalls : List MPurpose

/-- Static run environment: the user input, the allowed tool names from the
catalog, and the rendering of a Python float by an f-string (kept abstract:
no claim depends on float formatting). -/
structure Env where
  user_input : String
  allowed : List String
  fmtFloat : PyFloat → String

/-- How `agent_run` ends: returning a string to the caller, or letting an
exception propagate. -/
inductive Outcome where
  | ret (s : String)
  | raised
  deriving DecidableEq

/-- Whether the outcome is a propagated exception. -/
def Outcome.isRaised : Outcome → Bool
  | Outcome.raised => true
  | _ => false

/-- Final outcome of a run together with the final instrumented state. -/
structure RunResult where
  out : Outcome
  st : St

/-- Record one model-gateway call. -/
def recordM (st : St) (p : MPurpose) : St :=
  { st with mIdx := st.mIdx + 1, mcalls := st.mcalls ++ [p] }

/-- Record one tool-gateway invocation. -/
def recordT (st : St) (name : String) (args : List (String × JVal)) : St :=
  { st with tIdx := st.tIdx + 1, calls := st.calls ++ [(name, args)] }

/-- `_normalize_decision(parse_llm_json(raw))` on a response text: fails when
extraction/parsing failed or the shape is invalid. -/
def decodeResp (p : Option JVal) : Option NDecision :=
  p.bind normalize_decision

/-- Whether the first list is an initial segment of the second. -/
def listStartsWith : List Char → List Char → Bool
  | [], _ => true
  | _ :: _, [] => false
  | a :: as, b :: bs => a == b && listStartsWith as bs

/-- Python substring membership `needle in hay`. -/
def substrIn (needle : List Char) : List Char → Bool
  | [] => listStartsWith needle []
  | c :: tl => listStartsWith needle (c :: tl) || substrIn needle tl

/-- The `must_greet` predicate of `agent_run`: plain substring matching on
the lower-cased user input. -/
def mustGreet (user_input : String) : Bool :=
  substrIn "say hello".data (strLower user_input).data
    || substrIn "say_hello".data (strLower user_input).data

/-- Python truthiness of the optional `greet_msg` (non-`None` and non-empty),
as tested by the composition code. -/
def greetTruthy : Option String → Bool
  | none => false
  | some g => !(g == "")

/-- The fixed apology string returned in total failure. -/
def apologyText : String := "I couldn\x27t complete the requested steps."

/-- The f-string `The sum is {sum_value}`. -/
def sumText (env : Env) (x : PyFloat) : String := "The sum is " ++ env.fmtFloat x

/-- The composition after loop exit (source lines 335-341): sum and truthy
greeting combined, else sum alone, else truthy greeting, else the apology. -/
def composeFinal (env : Env) (st : St) : String :=
  match st.sum_value, st.greet_msg with
  | some x, some g => if g == "" then sumText env x else sumText env x ++ ". " ++ g
  | some x, none => sumText env x
  | none, some g => if g == "" then apologyText else g
  | none, none => apologyText

/-- The composition used when a `final` decision is honored inside the loop
(source lines 242-247 and 264-269): sum and truthy greeting combined, else
sum alone, else the model final verbatim.  Note the absence of a
greeting-only branch. -/
def composeInLoop (env : Env) (st : St) (f : String) : String :=
  match st.sum_value, st.greet_msg with
  | some x, some g => if g == "" then sumText env x else sumText env x ++ ". " ++ g
  | some x, none => sumText env x
  | none, _ => f

/-- Handling of a `final` decision by the loop: when a greeting is mandatory
and none has been captured, a forced `say_hello` tool call replaces the
decision; otherwise the run returns the in-loop composition. -/
def finalGate (env : Env) (st : St) (f : String) : NDecision ⊕ String :=
  if mustGreet env.user_input ∧ st.greet_msg = none then
    Sum.inl (NDecision.toolCall "say_hello" [])
  else Sum.inr (composeInLoop env st f)

/-- The top-of-iteration decision filter: `final` decisions go through
`finalGate`; tool calls pass unchanged. -/
def afterFinalGate (env : Env) (d : NDecision) (st : St) : NDecision ⊕ String :=
  match d with
  | NDecision.final f => finalGate env st f
  | d => Sum.inl d

/-- `decision_obj.get("tool")`. -/
def nameOf : NDecision → Option String
  | NDecision.final _ => none
  | NDecision.toolCall n _ => some n

/-- The validation test `decision_obj.get("tool") in allowed_tool_names`. -/
def knownTool (env : Env) (d : NDecision) : Bool :=
  match nameOf d with
  | some n => env.allowed.contains n
  | none => false

/-- Deterministic result capture after a tool call (source lines 298-308):
`add_numbers` observations are parsed as floats into `sum_value` (parse
failures ignored); `say_hello` observations are stored in `greet_msg`. -/
def capture (name : String) (obs : String) (st : St) : St :=
  if name == "add_numbers" then
    match pyFloat obs with
    | some x => { st with sum_value := some x }
    | none => st
  else if name == "say_hello" then { st with greet_msg := some obs }
  else st

/-- How one loop iteration ends: an in-loop `return`, a propagated
exception, a `break` to the fall-through composition, or the next iteration
with the step counter incremented. -/
inductive BodyOut where
  | ret (s : String) (st : St)
  | raised (st : St)
  | brk (st : St)
  | next (d : NDecision) (st : St)

/-- The state carried by a `BodyOut`. -/
def BodyOut.state : BodyOut → St
  | BodyOut.ret _ st => st
  | BodyOut.raised st => st
  | BodyOut.brk st => st
  | BodyOut.next _ st => st

/-- Tool execution, capture, and the follow-up decision request (source
lines 290-332): the completeness re-check for `add_numbers`, the tool-
gateway call at line 295 (unguarded, so a tool exception propagates), result
capture, the deterministic re-scheduling of a pending mandatory greeting,
and the next-decision chat at line 321 (chat exceptions propagate; a
malformed reply breaks to composition). -/
def execCall (gw : Gw) (env : Env) (name : String) (args : List (String × JVal)) (st : St) :
    BodyOut :=
  if name == "add_numbers" && !(hasKey args "a" && hasKey args "b") then BodyOut.brk st
  else
    let st1 := recordT st name args
    match gw.tool st.tIdx with
    | TResp.traise => BodyOut.raised st1
    | TResp.tobs obs =>
      let st2 := capture name obs st1
      if mustGreet env.user_input ∧ st2.greet_msg = none then
        BodyOut.next (NDecision.toolCall "say_hello" []) { st2 with steps := st2.steps + 1 }
      else
        let st3 := recordM st2 MPurpose.pNext
        match gw.model st2.mIdx with
        | MResp.mraise => BodyOut.raised st3
        | MResp.mtext p =>
          match decodeResp p with
          | none => BodyOut.brk st3
          | some d2 => BodyOut.next d2 { st3 with steps := st3.steps + 1 }

/-- The tool-execution phase (source lines 271-289): canonicalize the
arguments, and for an `add_numbers` call still missing an addend, make the
one-shot narrowly-scoped extraction chat at line 282 (unguarded, so a chat
exception propagates) whose reply, when it normalizes to an `add_numbers`
call, replaces the arguments after re-canonicalization.  A `final` decision
can never reach this phase; the corresponding branch models the `KeyError`
a dict without a `"tool"` key would raise. -/
def execPhase (gw : Gw) (env : Env) (d : NDecision) (st : St) : BodyOut :=
  match d with
  | NDecision.final _ => BodyOut.raised st
  | NDecision.toolCall name args0 =>
    let args1 := canonicalize_args name args0 env.user_input
    if name == "add_numbers" && !(hasKey args1 "a" && hasKey args1 "b") then
      let st1 := recordM st MPurpose.pArgFix
      match gw.model st.mIdx with
      | MResp.mraise => BodyOut.raised st1
      | MResp.mtext p =>
        let args2 :=
          match decodeResp p with
          | some (NDecision.toolCall n fargs) =>
            if n == "add_numbers" then canonicalize_args "add_numbers" fargs env.user_input
            else args1
          | _ => args1
        execCall gw env name args2 st1
    else execCall gw env name args1 st

/-- One iteration of the `while steps < max_steps` body (source lines
236-332): the final gate, the tool-name validation with its single repair
chat (whose failures are caught and break to composition), the second final
gate on a repaired `final`, and the execution phase.  A repaired tool call
is not re-validated. -/
def loopBody (gw : Gw) (env : Env) (d0 : NDecision) (st0 : St) : BodyOut :=
  match afterFinalGate env d0 st0 with
  | Sum.inr s => BodyOut.ret s st0
  | Sum.inl d1 =>
    if knownTool env d1 then execPhase gw env d1 st0
    else
      let st1 := recordM st0 MPurpose.pUnknownRepair
      match gw.model st0.mIdx with
      | MResp.mraise => BodyOut.brk st1
      | MResp.mtext p =>
        match decodeResp p with
        | none => BodyOut.brk st1
        | some (NDecision.final f) =>
          match finalGate env st1 f with
          | Sum.inr s => BodyOut.ret s st1
          | Sum.inl d3 => execPhase gw env d3 st1
        | some d2 => execPhase gw env d2 st1

/-- `max_steps = 5`. -/
def maxSteps : Nat := 5

/-- The fuelled loop runner.  The `steps < max_steps` guard is the loop
condition of the source; the fuel argument only makes the recursion
structural, and `maxSteps` fuel always suffices (proved below), so the
zero-fuel branch returns the same fall-through composition as the guard. -/
def loopGo (gw : Gw) (env : Env) : Nat → NDecision → St → RunResult
  | 0, _, st => ⟨Outcome.ret (composeFinal env st), st⟩
  | fuel + 1, d, st =>
    if st.steps < maxSteps then
      match loopBody gw env d { st with iters := st.iters + 1 } with
      | BodyOut.ret s st1 => ⟨Outcome.ret s, st1⟩
      | BodyOut.raised st1 => ⟨Outcome.raised, st1⟩
      | BodyOut.brk st1 => ⟨Outcome.ret (composeFinal env st1), st1⟩
      | BodyOut.next d1 st1 => loopGo gw env fuel d1 st1
    else ⟨Outcome.ret (composeFinal env st), st⟩

/-- Result of the pre-loop handshake: a first decision, or a propagated
exception. -/
inductive InitOut where
  | ok (d : NDecision) (st : St)
  | raised (st : St)

/-- The fresh per-run state. -/
def initSt : St := ⟨0, 0, 0, 0, none, none, [], []⟩

/-- The format-repair retry of the pre-loop handshake (source lines
208-220): one more chat whose reply must normalize; the chat itself and the
normalization are outside any handler, so their failures propagate. -/
def initialRepair (gw : Gw) (st : St) : InitOut :=
  let st1 := recordM st MPurpose.pInitialRepair
  match gw.model st.mIdx with
  | MResp.mraise => InitOut.raised st1
  | MResp.mtext p =>
    match decodeResp p with
    | none => InitOut.raised st1
    | some d => InitOut.ok d st1

/-- The pre-loop handshake (source lines 200-220): the first chat and
normalization, with one guarded format-repair retry on any failure. -/
def initialPhase (gw : Gw) : InitOut :=
  let st1 := recordM initSt MPurpose.pInitial
  match gw.model 0 with
  | MResp.mraise => initialRepair gw st1
  | MResp.mtext p =>
    match decodeResp p with
    | some d => InitOut.ok d st1
    | none => initialRepair gw st1

/-- Whether the handshake produced a decision. -/
def InitOut.isOk : InitOut → Bool
  | InitOut.ok _ _ => true
  | _ => false

/-- `agent_run`: the pre-loop handshake followed by the bounded
orchestration loop and, on loop exit, the fall-through composition. -/
def agent_run (gw : Gw) (env : Env) : RunResult :=
  match initialPhase gw with
  | InitOut.raised st => ⟨Outcome.raised, st⟩
  | InitOut.ok d st => loopGo gw env maxSteps d st

/-! ## Spec-side predicates, concrete gateways and scenario states -/

def c8args : List (String × JVal) := [("mood", JVal.jstr "fine")]

def looksPurelyNumeric (s : String) : Bool :=
  !s.data.isEmpty && s.data.all (fun c =>
    c.isDigit || c == '+' || c == '-' || c == '.' || c == 'e' || c == 'E')

def DigitRun (l : List Char) : Prop := l ≠ [] ∧ ∀ c ∈ l, c.isDigit = true

def SignShape (g : List Char) : Prop := g = [] ∨ g = ['+'] ∨ g = ['-']

def MantShape (m : List Char) : Prop :=
  DigitRun m ∨
    (∃ D F, m = D ++ '.' :: F ∧ DigitRun D ∧ (F = [] ∨ DigitRun F)) ∨
    (∃ F, m = '.' :: F ∧ DigitRun F)

def ExpShape (e : List Char) : Prop :=
  e = [] ∨ ∃ mk sg D, e = mk :: (sg ++ D) ∧ (mk = 'e' ∨ mk = 'E') ∧ SignShape sg ∧ DigitRun D

def NumericShape (s : String) : Prop :=
  ∃ g m e, s.data = g ++ m ++ e ∧ SignShape g ∧ MantShape m ∧ ExpShape e

def InitOut.state : InitOut → St
  | InitOut.ok _ st => st
  | InitOut.raised st => st

def fmtNone : PyFloat → String := fun _ => ""

def jFinal (f : String) : JVal := JVal.jobj [("final", JVal.jstr f)]

def jToolJ (n : String) (as : List (String × JVal)) : JVal :=
  JVal.jobj [("tool", JVal.jstr n), ("args", JVal.jobj as)]

def envPlain : Env := ⟨"hi", ["add_numbers", "say_hello"], fmtNone⟩

def envGreet : Env := ⟨"Please say hello", ["add_numbers", "say_hello"], fmtNone⟩

def gwC1 : Gw := ⟨fun _ => MResp.mtext none, fun _ => TResp.tobs "x"⟩

def gwC1w : Gw := ⟨fun _ => MResp.mtext (some (jFinal "done")), fun _ => TResp.tobs "x"⟩

def d0W : NDecision := NDecision.final "w"

def gwC5 : Gw :=
  ⟨fun i => match i with
    | 0 => MResp.mtext (some (jToolJ "bogus" []))
    | 1 => MResp.mtext (some (jToolJ "bogus2" []))
    | _ => MResp.mtext (some (jFinal "GOTCHA")),
   fun _ => TResp.tobs "whatever"⟩

def gwC3 : Gw :=
  ⟨fun i => match i with
    | 0 => MResp.mtext (some (jToolJ "say_hello" []))
    | _ => MResp.mtext (some (jFinal "FINAL-TEXT")),
   fun _ => TResp.tobs "Hello from server!"⟩

def stG3 : St := ⟨0, 0, 0, 0, none, some "hey", [], []⟩

def gwC10 : Gw :=
  ⟨fun i => match i with
    | 0 => MResp.mtext (some (jToolJ "say_hello" []))
    | _ => MResp.mtext none,
   fun _ => TResp.tobs ""⟩

def stE10 : St := ⟨0, 0, 0, 0, none, some "", [], []⟩

def braceD (c : Char) : Int := if c = '{' then 1 else if c = '}' then -1 else 0

def bnet : List Char → Int
  | [] => 0
  | c :: cs => braceD c + bnet cs

def IsBalBlock (w : List Char) : Prop :=
  w.head? = some '{' ∧ bnet w = 0 ∧ ∀ m, 0 < m → m < w.length → 0 < bnet (w.take m)

def closeAt : List Char → Nat → Nat → Option Nat
  | [], _, _ => none
  | c :: cs, i, d =>
    if c = '{' then closeAt cs (i + 1) (d + 1)
    else if c = '}' then (if d = 1 then some i else closeAt cs (i + 1) (d - 1))
    else closeAt cs (i + 1) d

/-! ## Theorems -/

theorem digit_toLower (c : Char) (h : c.isDigit = true) : c.toLower = c := by
  simp only [Char.isDigit, Bool.and_eq_true, decide_eq_true_eq] at h
  have h2 : c.val.toNat ≤ 57 := UInt32.toNat_le_of_le (by decide) h.2
  simp only [Char.toLower, Char.toNat]
  rw [if_neg]
  omega

theorem digit_not_ws (c : Char) (h : c.isDigit = true) : isPyWs c = false := by
  by_contra hc
  simp only [isPyWs, Bool.or_eq_true, beq_iff_eq, Bool.not_eq_false, or_assoc] at hc
  rcases hc with rfl | rfl | rfl | rfl | rfl | rfl <;> simp [Char.isDigit] at h

-- C9 helper rfl tests

theorem lowerDict_a (v : JVal) : lowerDict [("a", v)] = [("a", v)] := rfl

theorem lowerDict_ab (v w : JVal) : lowerDict [("a", v), ("b", w)] = [("a", v), ("b", w)] := rfl

theorem lowerDict_b (w : JVal) : lowerDict [("b", w)] = [("b", w)] := rfl

theorem pickA_a (v : JVal) : pickVal [("a", v)] aKeys = v := rfl

theorem pickB_a (v : JVal) : pickVal [("a", v)] bKeys = JVal.jnull := rfl

theorem pickA_b (w : JVal) : pickVal [("b", w)] aKeys = JVal.jnull := rfl

theorem pickB_b (w : JVal) : pickVal [("b", w)] bKeys = w := rfl

theorem pickA_ab (v w : JVal) : pickVal [("a", v), ("b", w)] aKeys = v := rfl

theorem pickB_ab (v w : JVal) : pickVal [("a", v), ("b", w)] bKeys = w := rfl

theorem canon_add_eq (a : List (String × JVal)) (s : String) :
    canonicalize_args "add_numbers" a s =
      (let pA := pickVal (lowerDict a) aKeys
       let pB := pickVal (lowerDict a) bKeys
       let A := if pA.isNull then (extract_two_numbers s).1 else pA
       let B := if pB.isNull then (extract_two_numbers s).2 else pB
       (if A.isNull then [] else [("a", A)]) ++ (if B.isNull then [] else [("b", B)])) := by
  simp only [canonicalize_args]
  cases hA : (pickVal (lowerDict a) aKeys).isNull <;>
    cases hB : (pickVal (lowerDict a) bKeys).isNull <;>
    simp [hA, hB]

theorem lowerDict_nil : lowerDict [] = [] := rfl

theorem pickA_nil : pickVal [] aKeys = JVal.jnull := rfl

theorem pickB_nil : pickVal [] bKeys = JVal.jnull := rfl

theorem isNull_jnull : JVal.jnull.isNull = true := rfl

theorem isNull_jfloat (x : PyFloat) : (JVal.jfloat x).isNull = false := rfl

/-- Claim C9: argument canonicalization is idempotent for every tool name, argument mapping and user text, covering the alias-resolving add_numbers, the zero-parameter say_hello, and pass-through unknown tools. -/
theorem C9_idem (t : String) (a : List (String × JVal)) (s : String) :
    canonicalize_args t (canonicalize_args t a s) s = canonicalize_args t a s := by
  by_cases ht : t = "add_numbers"
  · subst ht
    rw [canon_add_eq a s]
    cases hA : (pickVal (lowerDict a) aKeys).isNull <;>
      cases hB : (pickVal (lowerDict a) bKeys).isNull <;>
      cases hg1 : (extract_two_numbers s).1.isNull <;>
      cases hg2 : (extract_two_numbers s).2.isNull <;>
      simp only [hA, hB, hg1, hg2, Bool.false_eq_true, if_true, if_false, ite_true, ite_false,
        List.nil_append, List.append_nil] <;>
      rw [canon_add_eq] <;>
      simp [lowerDict_nil, lowerDict_a, lowerDict_b, lowerDict_ab, pickA_nil, pickB_nil,
        pickA_a, pickB_a, pickA_b, pickB_b, pickA_ab, pickB_ab, isNull_jnull, hA, hB, hg1, hg2]
  · by_cases ht2 : t = "say_hello"
    · subst ht2
      have h1 : ∀ x, canonicalize_args "say_hello" x s = [] := by
        intro x
        simp [canonicalize_args]
      rw [h1, h1]
    · have hpass : ∀ x, canonicalize_args t x s = x := by
        intro x
        have e1 : (t == "add_numbers") = false := by
          simp [ht]
        have e2 : (t == "say_hello") = false := by
          simp [ht2]
        simp [canonicalize_args, e1, e2]
      rw [hpass, hpass]

/-- Claim C8: for add_numbers, canonicalization never overwrites an alias-resolved slot, fills a missing first slot with the first numeric literal of the user text and a missing second slot with the second literal, and when both canonical keys are absent it recovers both literals in left-to-right order. -/
theorem C8_thm (args : List (String × JVal)) (s : String) :
    ((pickVal (lowerDict args) aKeys).isNull = false →
      dictGet? (canonicalize_args "add_numbers" args s) "a" =
        some (pickVal (lowerDict args) aKeys)) ∧
    ((pickVal (lowerDict args) bKeys).isNull = false →
      dictGet? (canonicalize_args "add_numbers" args s) "b" =
        some (pickVal (lowerDict args) bKeys)) ∧
    (∀ n1 n2 rest x, (pickVal (lowerDict args) aKeys).isNull = true →
      numFindall s.data = n1 :: n2 :: rest → pyFloat (String.mk n1) = some x →
      (pyFloat (String.mk n2)).isSome = true →
      dictGet? (canonicalize_args "add_numbers" args s) "a" = some (JVal.jfloat x)) ∧
    (∀ n1 n2 rest y, (pickVal (lowerDict args) bKeys).isNull = true →
      numFindall s.data = n1 :: n2 :: rest → (pyFloat (String.mk n1)).isSome = true →
      pyFloat (String.mk n2) = some y →
      dictGet? (canonicalize_args "add_numbers" args s) "b" = some (JVal.jfloat y)) ∧
    (∀ n1 n2 rest x y, (pickVal (lowerDict args) aKeys).isNull = true →
      (pickVal (lowerDict args) bKeys).isNull = true →
      numFindall s.data = n1 :: n2 :: rest → pyFloat (String.mk n1) = some x →
      pyFloat (String.mk n2) = some y →
      canonicalize_args "add_numbers" args s =
        [("a", JVal.jfloat x), ("b", JVal.jfloat y)]) := by
  have key : ∀ {n1 n2 : List Char} {rest : List (List Char)} {x y : PyFloat},
      numFindall s.data = n1 :: n2 :: rest →
      pyFloat (String.mk n1) = some x → pyFloat (String.mk n2) = some y →
      extract_two_numbers s = (JVal.jfloat x, JVal.jfloat y) := by
    intro n1 n2 rest x y hn hx hy
    simp [extract_two_numbers, hn, hx, hy]
  refine ⟨?_, ?_, ?_, ?_, ?_⟩
  · intro h
    rw [canon_add_eq args s]
    simp [h, dictGet?, List.find?]
  · intro h
    rw [canon_add_eq args s]
    cases hA : (pickVal (lowerDict args) aKeys).isNull <;>
      cases hg1 : (extract_two_numbers s).1.isNull <;>
      simp [h, hA, hg1, dictGet?, List.find?]
  · intro n1 n2 rest x hA hn hx hy2
    obtain ⟨y, hy⟩ := Option.isSome_iff_exists.mp hy2
    rw [canon_add_eq args s]
    simp [hA, key hn hx hy, dictGet?, List.find?, isNull_jfloat]
  · intro n1 n2 rest y hB hn hx2 hy
    obtain ⟨x, hx⟩ := Option.isSome_iff_exists.mp hx2
    rw [canon_add_eq args s]
    cases hA : (pickVal (lowerDict args) aKeys).isNull <;>
      simp [hB, hA, key hn hx hy, dictGet?, List.find?, isNull_jfloat]
  · intro n1 n2 rest x y hA hB hn hx hy
    rw [canon_add_eq args s]
    simp [hA, hB, key hn hx hy, isNull_jfloat]

theorem C8_witness :
    canonicalize_args "add_numbers" c8args "add 3 and 4" =
      [("a", JVal.jfloat (PyFloat.num 3)), ("b", JVal.jfloat (PyFloat.num 4))] := by
  have h := (C8_thm c8args "add 3 and 4").2.2.2.2
  have hx : pyFloat (String.mk ['3']) = some (PyFloat.num 3) := by
    simp [pyFloat, pyFloatNum, mantissaParse, digRun, digRunGo, parseSign, pyStrip,
      ratOfParts, digitsToNat, isPyWs]
  have hy : pyFloat (String.mk ['4']) = some (PyFloat.num 4) := by
    simp [pyFloat, pyFloatNum, mantissaParse, digRun, digRunGo, parseSign, pyStrip,
      ratOfParts, digitsToNat, isPyWs]
  exact h ['3'] ['4'] [] (PyFloat.num 3) (PyFloat.num 4) (by decide) (by decide)
    (by rfl) hx hy

theorem ne_of_digit {c d : Char} (h : c.isDigit = true) (hd : d.isDigit = false) : c ≠ d := by
  rintro rfl
  rw [h] at hd
  exact absurd hd (by simp)

theorem digRunGo_digits (D : List Char) : ∀ (acc r : List Char),
    (∀ c ∈ D, c.isDigit = true) →
    (∀ c, r.head? = some c → c.isDigit = false ∧ c ≠ '_') →
    digRunGo acc (D ++ r) = (acc.reverse ++ D, r) := by
  induction D with
  | nil =>
    intro acc r _ hr
    cases r with
    | nil => simp [digRunGo]
    | cons c cs =>
      obtain ⟨h1, h2⟩ := hr c rfl
      have step : digRunGo acc (c :: cs) = (acc.reverse, c :: cs) := by
        rw [digRunGo.eq_def]
        simp [h1, h2]
      simpa using step
  | cons d D ih =>
    intro acc r hD hr
    have hd : d.isDigit = true := hD d (by simp)
    have step : digRunGo acc ((d :: D) ++ r) = digRunGo (d :: acc) (D ++ r) := by
      rw [digRunGo.eq_def]
      simp [hd]
    rw [step, ih (d :: acc) r (fun c hc => hD c (by simp [hc])) hr]
    simp

theorem digRun_digits (D r : List Char) (hne : D ≠ [])
    (hD : ∀ c ∈ D, c.isDigit = true)
    (hr : ∀ c, r.head? = some c → c.isDigit = false ∧ c ≠ '_') :
    digRun (D ++ r) = some (D, r) := by
  cases D with
  | nil => exact absurd rfl hne
  | cons d D =>
    have hd : d.isDigit = true := hD d (by simp)
    have step : digRun ((d :: D) ++ r) = some (digRunGo [d] (D ++ r)) := by
      rw [digRun.eq_def]
      simp [hd]
    rw [step, digRunGo_digits D [d] r (fun c hc => hD c (by simp [hc])) hr]
    simp

theorem dropWhile_all_false {p : Char → Bool} (l : List Char)
    (h : ∀ c ∈ l, p c = false) : List.dropWhile p l = l := by
  cases l with
  | nil => rfl
  | cons c cs => simp [List.dropWhile, h c (by simp)]

theorem pyStrip_id (l : List Char) (h : ∀ c ∈ l, isPyWs c = false) : pyStrip l = l := by
  unfold pyStrip
  rw [dropWhile_all_false l h, dropWhile_all_false l.reverse (fun c hc => h c (by
    rw [List.mem_reverse] at hc
    exact hc)), List.reverse_reverse]

theorem digit_not_ws' (c : Char) (h : c.isDigit = true) : isPyWs c = false := by
  by_contra hc
  simp only [isPyWs, Bool.or_eq_true, beq_iff_eq, Bool.not_eq_false, or_assoc] at hc
  rcases hc with rfl | rfl | rfl | rfl | rfl | rfl <;> simp [Char.isDigit] at h

theorem pyInt_shape (g m : List Char) (hg : SignShape g) (hm : DigitRun m) :
    ∃ n, pyInt (String.mk (g ++ m)) = some n := by
  obtain ⟨hne, hdig⟩ := hm
  have hws : ∀ c ∈ g ++ m, isPyWs c = false := by
    intro c hc
    rcases List.mem_append.mp hc with hcg | hcm
    · rcases hg with rfl | rfl | rfl
      · simp at hcg
      · simp at hcg
        subst hcg
        decide
      · simp at hcg
        subst hcg
        decide
    · exact digit_not_ws' c (hdig c hcm)
  obtain ⟨mc, mt, rfl⟩ : ∃ mc mt, m = mc :: mt := by
    cases m with
    | nil => exact absurd rfl hne
    | cons a b => exact ⟨a, b, rfl⟩
  have hmc : mc.isDigit = true := hdig mc (by simp)
  have hplus : (mc == '+') = false := by
    simp [ne_of_digit hmc (show ('+').isDigit = false by decide)]
  have hminus : (mc == '-') = false := by
    simp [ne_of_digit hmc (show ('-').isDigit = false by decide)]
  have hdr : digRun ((mc :: mt) ++ []) = some (mc :: mt, []) :=
    digRun_digits (mc :: mt) [] hne hdig (fun c h => by simp at h)
  rw [List.append_nil] at hdr
  rcases hg with rfl | rfl | rfl
  · refine ⟨1 * (digitsToNat (mc :: mt) : Int), ?_⟩
    simp only [pyInt, List.nil_append]
    rw [pyStrip_id _ (by simpa using hws)]
    simp [parseSign, hplus, hminus, hdr]
  · refine ⟨1 * (digitsToNat (mc :: mt) : Int), ?_⟩
    simp only [pyInt]
    rw [pyStrip_id _ hws]
    simp [parseSign, hdr]
  · refine ⟨-1 * (digitsToNat (mc :: mt) : Int), ?_⟩
    simp only [pyInt]
    rw [pyStrip_id _ hws]
    simp [parseSign, hdr]

theorem exp_head_cond (e : List Char) (he : ExpShape e) :
    ∀ c, e.head? = some c → c.isDigit = false ∧ c ≠ '_' := by
  rcases he with rfl | ⟨mk, sg, D, rfl, hmk, _, _⟩
  · intro c h
    simp at h
  · intro c h
    simp only [List.head?_cons, Option.some.injEq] at h
    subst h
    rcases hmk with rfl | rfl <;> exact ⟨by decide, by decide⟩

theorem digRun_none_of_head (l : List Char)
    (h : ∀ c, l.head? = some c → c.isDigit = false) : digRun l = none := by
  cases l with
  | nil => rfl
  | cons c cs =>
    have := h c (by simp)
    simp [digRun, this]

theorem mantissaParse_shape (m e : List Char) (hm : MantShape m) (he : ExpShape e) :
    ∃ q, mantissaParse (m ++ e) = some (q, e) := by
  have hhead : ∀ c, e.head? = some c → c.isDigit = false ∧ c ≠ '_' := exp_head_cond e he
  have hedot : ∀ c r2, e = c :: r2 → (c == '.') = false := by
    intro c r2 hce
    rcases he with rfl | ⟨mk, sg, D, heq, hmk, _, _⟩
    · simp at hce
    · rw [heq] at hce
      injection hce with h1 _
      subst h1
      rcases hmk with rfl | rfl <;> decide
  rcases hm with ⟨hne, hdig⟩ | ⟨D, F, heqm, hD, hF⟩ | ⟨F, heqm, hF⟩
  · refine ⟨ratOfParts m [], ?_⟩
    simp only [mantissaParse]
    rw [digRun_digits m e hne hdig hhead]
    cases e with
    | nil => rfl
    | cons c r2 => simp [hedot c r2 rfl]
  · subst heqm
    rcases hF with rfl | hFd
    · refine ⟨ratOfParts D [], ?_⟩
      simp only [mantissaParse, List.append_assoc, List.cons_append]
      rw [digRun_digits D ('.' :: ([] ++ e)) hD.1 hD.2
        (fun c h => by
          simp only [List.head?_cons, Option.some.injEq] at h
          subst h
          exact ⟨by decide, by decide⟩)]
      have hde : digRun e = none :=
        digRun_none_of_head e (fun c h => (hhead c h).1)
      simp [hde]
    · refine ⟨ratOfParts D F, ?_⟩
      simp only [mantissaParse, List.append_assoc, List.cons_append]
      rw [digRun_digits D ('.' :: (F ++ e)) hD.1 hD.2
        (fun c h => by
          simp only [List.head?_cons, Option.some.injEq] at h
          subst h
          exact ⟨by decide, by decide⟩)]
      simp [digRun_digits F e hFd.1 hFd.2 hhead]
  · subst heqm
    refine ⟨ratOfParts [] F, ?_⟩
    have hnd : digRun (('.' :: F) ++ e) = none := by
      apply digRun_none_of_head
      intro c h
      simp only [List.cons_append, List.head?_cons, Option.some.injEq] at h
      subst h
      decide
    simp only [mantissaParse]
    rw [hnd]
    simp only [List.cons_append]
    simp [digRun_digits F e hF.1 hF.2 hhead]

theorem pyFloatNum_shape (m e : List Char) (hm : MantShape m) (he : ExpShape e) :
    ∃ q, pyFloatNum (m ++ e) = some q := by
  obtain ⟨q, hq⟩ := mantissaParse_shape m e hm he
  rcases he with rfl | ⟨mk, sg, D, rfl, hmk, hsg, hD⟩
  · rw [List.append_nil] at hq
    exact ⟨q, by simp [pyFloatNum, hq]⟩
  · have hdr : digRun (D ++ []) = some (D, []) :=
      digRun_digits D [] hD.1 hD.2 (fun c h => by simp at h)
    rw [List.append_nil] at hdr
    obtain ⟨d, Dt, rfl⟩ : ∃ d Dt, D = d :: Dt := by
      cases D with
      | nil => exact absurd rfl hD.1
      | cons a b => exact ⟨a, b, rfl⟩
    have hd : d.isDigit = true := hD.2 d (by simp)
    have hdp : (d == '+') = false := by
      simp [ne_of_digit hd (show ('+').isDigit = false by decide)]
    have hdm : (d == '-') = false := by
      simp [ne_of_digit hd (show ('-').isDigit = false by decide)]
    refine ⟨?_, ?_⟩
    case _ => exact q * (10 : ℚ) ^
      ((match sg with | ['-'] => (-1 : Int) | _ => 1) * (digitsToNat (d :: Dt) : Int))
    simp only [pyFloatNum]
    rw [hq]
    rcases hmk with rfl | rfl <;> rcases hsg with rfl | rfl | rfl <;>
      simp [parseSign, hdr, hdp, hdm]

theorem pyFloat_shape (g m e : List Char) (hg : SignShape g) (hm : MantShape m)
    (he : ExpShape e) : ∃ x, pyFloat (String.mk (g ++ m ++ e)) = some x := by
  have hm_chars : ∀ c ∈ m, c.isDigit = true ∨ c = '.' := by
    intro c hc
    rcases hm with ⟨_, hdig⟩ | ⟨D, F, rfl, hD, hF⟩ | ⟨F, rfl, hF⟩
    · exact Or.inl (hdig c hc)
    · rcases List.mem_append.mp hc with h | h
      · exact Or.inl (hD.2 c h)
      · rcases List.mem_cons.mp h with rfl | h
        · exact Or.inr rfl
        · rcases hF with rfl | hFd
          · simp at h
          · exact Or.inl (hFd.2 c h)
    · rcases List.mem_cons.mp hc with rfl | h
      · exact Or.inr rfl
      · exact Or.inl (hF.2 c h)
  have he_chars : ∀ c ∈ e, c.isDigit = true ∨ c = 'e' ∨ c = 'E' ∨ c = '+' ∨ c = '-' := by
    intro c hc
    rcases he with rfl | ⟨mk, sg, D, rfl, hmk, hsg, hD⟩
    · simp at hc
    · rcases List.mem_cons.mp hc with rfl | h
      · rcases hmk with rfl | rfl
        · exact Or.inr (Or.inl rfl)
        · exact Or.inr (Or.inr (Or.inl rfl))
      · rcases List.mem_append.mp h with h | h
        · rcases hsg with rfl | rfl | rfl
          · simp at h
          · rcases List.mem_cons.mp h with rfl | h
            · exact Or.inr (Or.inr (Or.inr (Or.inl rfl)))
            · simp at h
          · rcases List.mem_cons.mp h with rfl | h
            · exact Or.inr (Or.inr (Or.inr (Or.inr rfl)))
            · simp at h
        · exact Or.inl (hD.2 c h)
  have hws : ∀ c ∈ g ++ m ++ e, isPyWs c = false := by
    intro c hc
    rcases List.mem_append.mp hc with h | h
    · rcases List.mem_append.mp h with h | h
      · rcases hg with rfl | rfl | rfl
        · simp at h
        · rcases List.mem_cons.mp h with rfl | h
          · decide
          · simp at h
        · rcases List.mem_cons.mp h with rfl | h
          · decide
          · simp at h
      · rcases hm_chars c h with hd | rfl
        · exact digit_not_ws' c hd
        · decide
    · rcases he_chars c h with hd | rfl | rfl | rfl | rfl
      · exact digit_not_ws' c hd
      all_goals decide
  obtain ⟨mc, mt, rfl, hmc⟩ : ∃ mc mt, m = mc :: mt ∧ (mc.isDigit = true ∨ mc = '.') := by
    rcases hm with ⟨hne, hdig⟩ | ⟨D, F, heqm, hD, _⟩ | ⟨F, heqm, _⟩
    · cases m with
      | nil => exact absurd rfl hne
      | cons a b => exact ⟨a, b, rfl, Or.inl (hdig a (by simp))⟩
    · obtain ⟨d, Dt, rfl⟩ : ∃ d Dt, D = d :: Dt := by
        cases D with
        | nil => exact absurd rfl hD.1
        | cons a b => exact ⟨a, b, rfl⟩
      exact ⟨d, Dt ++ '.' :: F, by simp [heqm], Or.inl (hD.2 d (by simp))⟩
    · exact ⟨'.', F, heqm, Or.inr rfl⟩
  have hni : mc.toLower ≠ 'i' ∧ mc.toLower ≠ 'n' := by
    rcases hmc with h | rfl
    · rw [digit_toLower mc h]
      exact ⟨ne_of_digit h (by decide), ne_of_digit h (by decide)⟩
    · exact ⟨by decide, by decide⟩
  obtain ⟨q, hq⟩ := pyFloatNum_shape (mc :: mt) e hm he
  rw [List.cons_append] at hq
  have hp : (mc == '+') = false := by
    rcases hmc with h | rfl
    · simp [ne_of_digit h (show ('+').isDigit = false by decide)]
    · decide
  have hmm : (mc == '-') = false := by
    rcases hmc with h | rfl
    · simp [ne_of_digit h (show ('-').isDigit = false by decide)]
    · decide
  rcases hg with rfl | rfl | rfl
  · refine ⟨PyFloat.num ((1 : ℚ) * q), ?_⟩
    simp only [pyFloat]
    rw [pyStrip_id _ (by simpa using hws)]
    simp [parseSign, hp, hmm, hni.1, hni.2]
    rw [hq]
  · refine ⟨PyFloat.num ((1 : ℚ) * q), ?_⟩
    simp only [pyFloat]
    rw [pyStrip_id _ hws]
    simp [parseSign, hni.1, hni.2]
    rw [hq]
  · refine ⟨PyFloat.num ((-1 : ℚ) * q), ?_⟩
    simp only [pyFloat]
    rw [pyStrip_id _ hws]
    simp [parseSign, hni.1, hni.2]
    rw [hq]

/-- Claim C7, amended: normalization maps each argument entry through coerce_val, which never modifies non-string values; a string is coerced to an integer exactly when it contains none of the dot or exponent markers and Python int parsing succeeds, to a float exactly when it contains such a marker and Python float parsing succeeds, and is left unchanged on parse failure. Every purely-numeric-shaped string parses, but the converse fails: int and float also accept underscores and whitespace, so coercion applies more broadly than the claimed purely-numeric test. -/
theorem C7_amended :
    (∀ (args : List (String × JVal)) (k : String) (v : JVal),
      (k, v) ∈ args → (k, coerce_val v) ∈ coerce_numbers args) ∧
    (∀ v : JVal, (∀ s, v ≠ JVal.jstr s) → coerce_val v = v) ∧
    (∀ s n, hasDotEe s = false → pyInt s = some n → coerce_val (JVal.jstr s) = JVal.jint n) ∧
    (∀ s, hasDotEe s = false → pyInt s = none → coerce_val (JVal.jstr s) = JVal.jstr s) ∧
    (∀ s x, hasDotEe s = true → pyFloat s = some x → coerce_val (JVal.jstr s) = JVal.jfloat x) ∧
    (∀ s, hasDotEe s = true → pyFloat s = none → coerce_val (JVal.jstr s) = JVal.jstr s) ∧
    (∀ s : String, NumericShape s →
      (hasDotEe s = false → ∃ n, pyInt s = some n) ∧ (∃ x, pyFloat s = some x)) := by
  refine ⟨?_, ?_, ?_, ?_, ?_, ?_, ?_⟩
  · intro args k v h
    exact List.mem_map.mpr ⟨(k, v), h, rfl⟩
  · intro v hv
    cases v
    case jstr s => exact absurd rfl (hv s)
    all_goals rfl
  · intro s n h1 h2
    simp [coerce_val, h1, h2]
  · intro s h1 h2
    simp [coerce_val, h1, h2]
  · intro s x h1 h2
    simp [coerce_val, h1, h2]
  · intro s h1 h2
    simp [coerce_val, h1, h2]
  · intro s hs
    obtain ⟨g, m, e, hdata, hg, hm, he⟩ := hs
    constructor
    · intro hno
      simp only [hasDotEe] at hno
      have hnotin := List.any_eq_false.mp hno
      have he0 : e = [] := by
        rcases he with rfl | ⟨mk, sg, D, rfl, hmk, _, _⟩
        · rfl
        · exfalso
          have hmem : mk ∈ s.data := by
            rw [hdata]
            simp
          have hx := hnotin mk hmem
          rcases hmk with rfl | rfl <;> simp at hx
      subst he0
      have hmd : DigitRun m := by
        rcases hm with h | ⟨D, F, rfl, hD, hF⟩ | ⟨F, rfl, hF⟩
        · exact h
        · exfalso
          have hmem : '.' ∈ s.data := by
            rw [hdata]
            simp
          have hx := hnotin '.' hmem
          simp at hx
        · exfalso
          have hmem : '.' ∈ s.data := by
            rw [hdata]
            simp
          have hx := hnotin '.' hmem
          simp at hx
      have hseq : s = String.mk (g ++ m) := by
        cases s with
        | mk data =>
          have hdata2 : data = g ++ m ++ [] := hdata
          rw [List.append_nil] at hdata2
          exact congrArg String.mk hdata2
      rw [hseq]
      exact pyInt_shape g m hg hmd
    · have hseq : s = String.mk (g ++ m ++ e) := by
        cases s with
        | mk data =>
          have hdata2 : data = g ++ m ++ e := hdata
          exact congrArg String.mk hdata2
      rw [hseq]
      exact pyFloat_shape g m e hg hm he

/-- Claim C7 is refuted on the string with an underscore: it is not purely numeric, yet it is coerced to the integer ten. -/
theorem C7_cx :
    coerce_val (JVal.jstr "1_0") = JVal.jint 10 ∧ looksPurelyNumeric "1_0" = false := by
  constructor
  · rfl
  · decide

theorem C7_witness :
    coerce_val (JVal.jstr "2.5") = JVal.jfloat (PyFloat.num (5 / 2)) ∧
      (∃ n, pyInt "17" = some n) := by
  constructor
  · apply C7_amended.2.2.2.2.1 "2.5" (PyFloat.num (5 / 2)) (by decide)
    have : pyFloat "2.5" = some (PyFloat.num ((1 : ℚ) * ratOfParts ['2'] ['5'])) := by
      simp [pyFloat, pyFloatNum, mantissaParse, digRun, digRunGo, parseSign, pyStrip, isPyWs]
    rw [this]
    norm_num [ratOfParts, digitsToNat,
      show (Char.toNat '2' - Char.toNat '0' : ℕ) = 2 from rfl,
      show (Char.toNat '5' - Char.toNat '0' : ℕ) = 5 from rfl]
  · exact ((C7_amended).2.2.2.2.2.2 "17"
      ⟨[], ['1', '7'], [], by decide, Or.inl rfl,
        Or.inl ⟨by simp, by decide⟩, Or.inl rfl⟩).1 (by decide)

theorem count_snoc_ne (l : List MPurpose) (p q : MPurpose) (h : ¬ p = q) :
    (l ++ [p]).count q = l.count q := by
  simp [List.count_append, List.count_cons, h]

theorem capture_fields (n o : String) (st : St) :
    (capture n o st).steps = st.steps ∧ (capture n o st).iters = st.iters ∧
    (capture n o st).mIdx = st.mIdx ∧ (capture n o st).tIdx = st.tIdx ∧
    (capture n o st).calls = st.calls ∧ (capture n o st).mcalls = st.mcalls := by
  unfold capture
  split_ifs <;> (try cases pyFloat o) <;> simp

theorem execCall_track (gw : Gw) (env : Env) (name : String)
    (args : List (String × JVal)) (st : St) :
    (∀ d1 st1, execCall gw env name args st = BodyOut.next d1 st1 →
      st1.steps = st.steps + 1 ∧ st1.iters = st.iters ∧
      st1.mcalls.count MPurpose.pUnknownRepair = st.mcalls.count MPurpose.pUnknownRepair) ∧
    (∀ st1, execCall gw env name args st = BodyOut.brk st1 →
      st1.steps = st.steps ∧ st1.iters = st.iters ∧
      st1.mcalls.count MPurpose.pUnknownRepair = st.mcalls.count MPurpose.pUnknownRepair) ∧
    (∀ st1, execCall gw env name args st = BodyOut.raised st1 →
      st1.steps = st.steps ∧ st1.iters = st.iters ∧
      st1.mcalls.count MPurpose.pUnknownRepair = st.mcalls.count MPurpose.pUnknownRepair ∧
      ((∃ i, gw.model i = MResp.mraise) ∨ (∃ j, gw.tool j = TResp.traise))) ∧
    (∀ s st1, execCall gw env name args st = BodyOut.ret s st1 → False) := by
  unfold execCall
  by_cases hmiss : (name == "add_numbers") && !(hasKey args "a" && hasKey args "b")
  · rw [if_pos hmiss]
    refine ⟨?_, ?_, ?_, ?_⟩ <;> intros <;> simp_all
  · rw [if_neg hmiss]
    try dsimp only
    cases hT : gw.tool st.tIdx with
    | traise =>
      refine ⟨fun d1 st1 h => BodyOut.noConfusion h, fun st1 h => BodyOut.noConfusion h,
        ?_, fun s st1 h => BodyOut.noConfusion h⟩
      intro st1 h
      injection h with h1
      subst h1
      exact ⟨by simp [recordT], by simp [recordT], by simp [recordT], Or.inr ⟨st.tIdx, hT⟩⟩
    | tobs obs =>
      try dsimp only
      obtain ⟨cs, ci, cm, ct, cc, cl⟩ := capture_fields name obs (recordT st name args)
      have cs2 := cs
      have ci2 := ci
      have cl2 := cl
      simp only [recordT] at cs2 ci2 cl2
      by_cases hmg : mustGreet env.user_input = true ∧
          (capture name obs (recordT st name args)).greet_msg = none
      · rw [if_pos hmg]
        refine ⟨?_, fun st1 h => BodyOut.noConfusion h,
          fun st1 h => BodyOut.noConfusion h, fun s st1 h => BodyOut.noConfusion h⟩
        intro d1 st1 h
        injection h with _ h2
        subst h2
        exact ⟨by simp [cs, cs2, recordT], by simp [ci, ci2, recordT],
          by simp [cl, cl2, recordT]⟩
      · rw [if_neg hmg]
        try dsimp only
        cases hM : gw.model (capture name obs (recordT st name args)).mIdx with
        | mraise =>
          refine ⟨fun d1 st1 h => BodyOut.noConfusion h, fun st1 h => BodyOut.noConfusion h,
            ?_, fun s st1 h => BodyOut.noConfusion h⟩
          intro st1 h
          injection h with h1
          subst h1
          refine ⟨by simp [recordM, cs, cs2, recordT], by simp [recordM, ci, ci2, recordT], ?_,
            Or.inl ⟨_, hM⟩⟩
          simp only [recordM]
          rw [count_snoc_ne _ _ _ (by decide)]
          simp [cl, cl2, recordT]
        | mtext p =>
          try dsimp only
          cases hD : decodeResp p with
          | none =>
            refine ⟨fun d1 st1 h => BodyOut.noConfusion h, ?_,
              fun st1 h => BodyOut.noConfusion h, fun s st1 h => BodyOut.noConfusion h⟩
            intro st1 h
            injection h with h1
            subst h1
            refine ⟨by simp [recordM, cs, cs2, recordT], by simp [recordM, ci, ci2, recordT], ?_⟩
            simp only [recordM]
            rw [count_snoc_ne _ _ _ (by decide)]
            simp [cl, cl2, recordT]
          | some d2 =>
            refine ⟨?_, fun st1 h => BodyOut.noConfusion h,
              fun st1 h => BodyOut.noConfusion h, fun s st1 h => BodyOut.noConfusion h⟩
            intro d1 st1 h
            injection h with _ h2
            subst h2
            refine ⟨by simp [recordM, cs, cs2, recordT], by simp [recordM, ci, ci2, recordT], ?_⟩
            simp only [recordM]
            rw [count_snoc_ne _ _ _ (by decide)]
            simp [cl, cl2, recordT]

theorem finalGate_inl (env : Env) (st : St) (f : String) (d : NDecision)
    (h : finalGate env st f = Sum.inl d) : d = NDecision.toolCall "say_hello" [] := by
  unfold finalGate at h
  split_ifs at h
  injection h with h1
  exact h1.symm

theorem execCall_state_count (gw : Gw) (env : Env) (name : String)
    (args : List (String × JVal)) (st : St) :
    (execCall gw env name args st).state.mcalls.count MPurpose.pUnknownRepair =
      st.mcalls.count MPurpose.pUnknownRepair := by
  obtain ⟨E1, E2, E3, E4⟩ := execCall_track gw env name args st
  cases hout : execCall gw env name args st with
  | ret s1 st1 => exact absurd hout (fun hh => E4 _ _ hh)
  | raised st1 => simpa [BodyOut.state] using (E3 _ hout).2.2.1
  | brk st1 => simpa [BodyOut.state] using (E2 _ hout).2.2
  | next d1 st1 => simpa [BodyOut.state] using (E1 _ _ hout).2.2

theorem execCall_over (gw : Gw) (env : Env) (name : String)
    (args : List (String × JVal)) (st : St) (p0 : MPurpose)
    (hne : ¬ p0 = MPurpose.pUnknownRepair) :
    (∀ d1 st1, execCall gw env name args (recordM st p0) = BodyOut.next d1 st1 →
      st1.steps = st.steps + 1 ∧ st1.iters = st.iters) ∧
    (∀ st1, execCall gw env name args (recordM st p0) = BodyOut.brk st1 →
      st1.steps = st.steps ∧ st1.iters = st.iters) ∧
    (∀ st1, execCall gw env name args (recordM st p0) = BodyOut.raised st1 →
      st1.steps = st.steps ∧ st1.iters = st.iters ∧
      ((∃ i, gw.model i = MResp.mraise) ∨ (∃ j, gw.tool j = TResp.traise))) ∧
    (∀ s st1, execCall gw env name args (recordM st p0) = BodyOut.ret s st1 → False) ∧
    ((execCall gw env name args (recordM st p0)).state.mcalls.count MPurpose.pUnknownRepair =
      st.mcalls.count MPurpose.pUnknownRepair) := by
  obtain ⟨E1, E2, E3, E4⟩ := execCall_track gw env name args (recordM st p0)
  refine ⟨?_, ?_, ?_, E4, ?_⟩
  · intro d1 st1 h
    obtain ⟨a, b, c⟩ := E1 d1 st1 h
    exact ⟨by rw [a]; simp [recordM], by rw [b]; simp [recordM]⟩
  · intro st1 h
    obtain ⟨a, b, c⟩ := E2 st1 h
    exact ⟨by rw [a]; simp [recordM], by rw [b]; simp [recordM]⟩
  · intro st1 h
    obtain ⟨a, b, c, hd⟩ := E3 st1 h
    exact ⟨by rw [a]; simp [recordM], by rw [b]; simp [recordM], hd⟩
  · rw [execCall_state_count gw env name args (recordM st p0)]
    simp only [recordM]
    rw [count_snoc_ne _ _ _ hne]

theorem execPhase_track (gw : Gw) (env : Env) (name : String)
    (args0 : List (String × JVal)) (st : St) :
    (∀ d1 st1, execPhase gw env (NDecision.toolCall name args0) st = BodyOut.next d1 st1 →
      st1.steps = st.steps + 1 ∧ st1.iters = st.iters) ∧
    (∀ st1, execPhase gw env (NDecision.toolCall name args0) st = BodyOut.brk st1 →
      st1.steps = st.steps ∧ st1.iters = st.iters) ∧
    (∀ st1, execPhase gw env (NDecision.toolCall name args0) st = BodyOut.raised st1 →
      st1.steps = st.steps ∧ st1.iters = st.iters ∧
      ((∃ i, gw.model i = MResp.mraise) ∨ (∃ j, gw.tool j = TResp.traise))) ∧
    (∀ s st1, execPhase gw env (NDecision.toolCall name args0) st = BodyOut.ret s st1 → False) ∧
    ((execPhase gw env (NDecision.toolCall name args0) st).state.mcalls.count
        MPurpose.pUnknownRepair = st.mcalls.count MPurpose.pUnknownRepair) := by
  unfold execPhase
  try dsimp only
  by_cases hfix : (name == "add_numbers")
      && !(hasKey (canonicalize_args name args0 env.user_input) "a"
          && hasKey (canonicalize_args name args0 env.user_input) "b")
  · rw [if_pos hfix]
    cases hM : gw.model st.mIdx with
    | mraise =>
      refine ⟨fun d1 st1 h => BodyOut.noConfusion h, fun st1 h => BodyOut.noConfusion h,
        ?_, fun s st1 h => BodyOut.noConfusion h, ?_⟩
      · intro st1 h
        injection h with h1
        subst h1
        exact ⟨by simp [recordM], by simp [recordM], Or.inl ⟨_, hM⟩⟩
      · simp only [BodyOut.state, recordM]
        rw [count_snoc_ne _ _ _ (by decide)]
    | mtext p =>
      try dsimp only
      exact execCall_over gw env name _ st MPurpose.pArgFix (by decide)
  · rw [if_neg hfix]
    obtain ⟨E1, E2, E3, E4⟩ := execCall_track gw env name
      (canonicalize_args name args0 env.user_input) st
    refine ⟨?_, ?_, ?_, E4, ?_⟩
    · intro d1 st1 h
      obtain ⟨a, b, c⟩ := E1 d1 st1 h
      exact ⟨a, b⟩
    · intro st1 h
      obtain ⟨a, b, c⟩ := E2 st1 h
      exact ⟨a, b⟩
    · intro st1 h
      obtain ⟨a, b, c, hd⟩ := E3 st1 h
      exact ⟨a, b, hd⟩
    · exact execCall_state_count gw env name (canonicalize_args name args0 env.user_input) st

theorem afterFinalGate_inl (env : Env) (d : NDecision) (st : St) (d1 : NDecision)
    (h : afterFinalGate env d st = Sum.inl d1) :
    (∃ n as, d1 = NDecision.toolCall n as) := by
  cases d with
  | final f =>
    simp only [afterFinalGate] at h
    rw [finalGate_inl env st f d1 h]
    exact ⟨_, _, rfl⟩
  | toolCall n as =>
    simp only [afterFinalGate] at h
    injection h with h1
    exact ⟨n, as, h1.symm⟩

theorem loopBody_track (gw : Gw) (env : Env) (d : NDecision) (st : St) :
    (∀ d1 st1, loopBody gw env d st = BodyOut.next d1 st1 →
      st1.steps = st.steps + 1 ∧ st1.iters = st.iters) ∧
    (∀ s st1, loopBody gw env d st = BodyOut.ret s st1 →
      st1.steps = st.steps ∧ st1.iters = st.iters) ∧
    (∀ st1, loopBody gw env d st = BodyOut.brk st1 →
      st1.steps = st.steps ∧ st1.iters = st.iters) ∧
    (∀ st1, loopBody gw env d st = BodyOut.raised st1 →
      st1.steps = st.steps ∧ st1.iters = st.iters ∧
      ((∃ i, gw.model i = MResp.mraise) ∨ (∃ j, gw.tool j = TResp.traise))) := by
  unfold loopBody
  cases hg : afterFinalGate env d st with
  | inr s =>
    refine ⟨fun d1 st1 h => BodyOut.noConfusion h, ?_,
      fun st1 h => BodyOut.noConfusion h, fun st1 h => BodyOut.noConfusion h⟩
    intro s2 st1 h
    injection h with _ h2
    subst h2
    exact ⟨rfl, rfl⟩
  | inl d1 =>
    obtain ⟨n, as, rfl⟩ := afterFinalGate_inl env d st d1 hg
    try dsimp only
    by_cases hk : knownTool env (NDecision.toolCall n as)
    · rw [if_pos hk]
      obtain ⟨E1, E2, E3, E4, _⟩ := execPhase_track gw env n as st
      exact ⟨fun d2 st1 h => E1 d2 st1 h, fun s st1 h => absurd h (fun hh => E4 s st1 hh),
        fun st1 h => E2 st1 h, fun st1 h => E3 st1 h⟩
    · rw [if_neg hk]
      try dsimp only
      cases hM : gw.model st.mIdx with
      | mraise =>
        refine ⟨fun d2 st1 h => BodyOut.noConfusion h, fun s st1 h => BodyOut.noConfusion h,
          ?_, fun st1 h => BodyOut.noConfusion h⟩
        intro st1 h
        injection h with h1
        subst h1
        exact ⟨by simp [recordM], by simp [recordM]⟩
      | mtext p =>
        try dsimp only
        cases hD : decodeResp p with
        | none =>
          refine ⟨fun d2 st1 h => BodyOut.noConfusion h, fun s st1 h => BodyOut.noConfusion h,
            ?_, fun st1 h => BodyOut.noConfusion h⟩
          intro st1 h
          injection h with h1
          subst h1
          exact ⟨by simp [recordM], by simp [recordM]⟩
        | some d2 =>
          have hexec : ∀ (n2 : String) (as2 : List (String × JVal)),
              (∀ d3 st1, execPhase gw env (NDecision.toolCall n2 as2)
                  (recordM st MPurpose.pUnknownRepair) = BodyOut.next d3 st1 →
                st1.steps = st.steps + 1 ∧ st1.iters = st.iters) ∧
              (∀ s st1, execPhase gw env (NDecision.toolCall n2 as2)
                  (recordM st MPurpose.pUnknownRepair) = BodyOut.ret s st1 → False) ∧
              (∀ st1, execPhase gw env (NDecision.toolCall n2 as2)
                  (recordM st MPurpose.pUnknownRepair) = BodyOut.brk st1 →
                st1.steps = st.steps ∧ st1.iters = st.iters) ∧
              (∀ st1, execPhase gw env (NDecision.toolCall n2 as2)
                  (recordM st MPurpose.pUnknownRepair) = BodyOut.raised st1 →
                st1.steps = st.steps ∧ st1.iters = st.iters ∧
                ((∃ i, gw.model i = MResp.mraise) ∨ (∃ j, gw.tool j = TResp.traise))) := by
            intro n2 as2
            obtain ⟨E1, E2, E3, E4, _⟩ :=
              execPhase_track gw env n2 as2 (recordM st MPurpose.pUnknownRepair)
            refine ⟨?_, fun s st1 h => E4 s st1 h, ?_, ?_⟩
            · intro d3 st1 h
              obtain ⟨a, b⟩ := E1 d3 st1 h
              exact ⟨by rw [a]; simp [recordM], by rw [b]; simp [recordM]⟩
            · intro st1 h
              obtain ⟨a, b⟩ := E2 st1 h
              exact ⟨by rw [a]; simp [recordM], by rw [b]; simp [recordM]⟩
            · intro st1 h
              obtain ⟨a, b, hd⟩ := E3 st1 h
              exact ⟨by rw [a]; simp [recordM], by rw [b]; simp [recordM], hd⟩
          cases d2 with
          | final f =>
            try dsimp only
            cases hfg : finalGate env (recordM st MPurpose.pUnknownRepair) f with
            | inr s2 =>
              try dsimp only
              refine ⟨fun d3 st1 h => BodyOut.noConfusion h, ?_,
                fun st1 h => BodyOut.noConfusion h, fun st1 h => BodyOut.noConfusion h⟩
              intro s3 st1 h
              injection h with _ h2
              subst h2
              exact ⟨by simp [recordM], by simp [recordM]⟩
            | inl d3 =>
              try dsimp only
              rw [finalGate_inl env _ f d3 hfg]
              obtain ⟨H1, H2, H3, H4⟩ := hexec "say_hello" []
              exact ⟨H1, fun s st1 h => absurd h (fun hh => H2 s st1 hh), H3, H4⟩
          | toolCall n2 as2 =>
            try dsimp only
            obtain ⟨H1, H2, H3, H4⟩ := hexec n2 as2
            exact ⟨H1, fun s st1 h => absurd h (fun hh => H2 s st1 hh), H3, H4⟩

theorem count_snoc_same (l : List MPurpose) (p : MPurpose) :
    (l ++ [p]).count p = l.count p + 1 := by
  simp [List.count_append]

theorem loopBody_repair (gw : Gw) (env : Env) (d : NDecision) (st : St) :
    (∀ s, afterFinalGate env d st = Sum.inr s → loopBody gw env d st = BodyOut.ret s st) ∧
    (∀ d1, afterFinalGate env d st = Sum.inl d1 → knownTool env d1 = true →
      (loopBody gw env d st).state.mcalls.count MPurpose.pUnknownRepair =
        st.mcalls.count MPurpose.pUnknownRepair) ∧
    (∀ d1, afterFinalGate env d st = Sum.inl d1 → knownTool env d1 = false →
      (loopBody gw env d st).state.mcalls.count MPurpose.pUnknownRepair =
        st.mcalls.count MPurpose.pUnknownRepair + 1) ∧
    (∀ d1, afterFinalGate env d st = Sum.inl d1 → knownTool env d1 = false →
      (gw.model st.mIdx = MResp.mraise ∨
        (∃ p, gw.model st.mIdx = MResp.mtext p ∧ decodeResp p = none)) →
      loopBody gw env d st = BodyOut.brk (recordM st MPurpose.pUnknownRepair)) := by
  refine ⟨?_, ?_, ?_, ?_⟩
  · intro s h
    unfold loopBody
    rw [h]
  · intro d1 h hk
    unfold loopBody
    rw [h]
    try dsimp only
    rw [if_pos hk]
    cases d1 with
    | final f => simp [knownTool, nameOf] at hk
    | toolCall n as => exact (execPhase_track gw env n as st).2.2.2.2
  · intro d1 h hk
    unfold loopBody
    rw [h]
    try dsimp only
    rw [if_neg (by simp [hk])]
    try dsimp only
    cases hM : gw.model st.mIdx with
    | mraise =>
      simp [BodyOut.state, recordM, count_snoc_same]
    | mtext p =>
      try dsimp only
      cases hD : decodeResp p with
      | none => simp [BodyOut.state, recordM, count_snoc_same]
      | some d2 =>
        have hcount : ∀ (n2 : String) (as2 : List (String × JVal)),
            (execPhase gw env (NDecision.toolCall n2 as2)
              (recordM st MPurpose.pUnknownRepair)).state.mcalls.count
                MPurpose.pUnknownRepair =
              st.mcalls.count MPurpose.pUnknownRepair + 1 := by
          intro n2 as2
          rw [(execPhase_track gw env n2 as2 (recordM st MPurpose.pUnknownRepair)).2.2.2.2]
          simp [recordM, count_snoc_same]
        cases d2 with
        | final f =>
          try dsimp only
          cases hfg : finalGate env (recordM st MPurpose.pUnknownRepair) f with
          | inr s2 =>
            try dsimp only
            simp [BodyOut.state, recordM, count_snoc_same]
          | inl d3 =>
            try dsimp only
            rw [finalGate_inl env _ f d3 hfg]
            exact hcount "say_hello" []
        | toolCall n2 as2 =>
          try dsimp only
          exact hcount n2 as2
  · intro d1 h hk hf
    unfold loopBody
    rw [h]
    try dsimp only
    rw [if_neg (by simp [hk])]
    try dsimp only
    rcases hf with hf | ⟨p, hp, hd⟩
    · rw [hf]
    · rw [hp]
      try dsimp only
      rw [hd]

theorem loopGo_fuel (gw : Gw) (env : Env) :
    ∀ f1 f2 (d : NDecision) (st : St), maxSteps - st.steps ≤ f1 → maxSteps - st.steps ≤ f2 →
      loopGo gw env f1 d st = loopGo gw env f2 d st := by
  intro f1
  induction f1 with
  | zero =>
    intro f2 d st h1 h2
    have hs : ¬ st.steps < maxSteps := by omega
    cases f2 with
    | zero => rfl
    | succ f2 => simp [loopGo, hs]
  | succ f1 ih =>
    intro f2 d st h1 h2
    cases f2 with
    | zero =>
      have hs : ¬ st.steps < maxSteps := by omega
      simp [loopGo, hs]
    | succ f2 =>
      simp only [loopGo]
      by_cases hs : st.steps < maxSteps
      · rw [if_pos hs, if_pos hs]
        cases hb : loopBody gw env d { st with iters := st.iters + 1 } with
        | ret s st1 => rfl
        | raised st1 => rfl
        | brk st1 => rfl
        | next d1 st1 =>
          have hstep : st1.steps = st.steps + 1 := by
            have := ((loopBody_track gw env d { st with iters := st.iters + 1 }).1 d1 st1 hb).1
            simpa using this
          exact ih f2 d1 st1 (by omega) (by omega)
      · rw [if_neg hs, if_neg hs]

theorem loopGo_iters (gw : Gw) (env : Env) :
    ∀ f (d : NDecision) (st : St),
      (loopGo gw env f d st).st.iters ≤ st.iters + (maxSteps - st.steps) := by
  intro f
  induction f with
  | zero =>
    intro d st
    simp [loopGo]
  | succ f ih =>
    intro d st
    simp only [loopGo]
    by_cases hs : st.steps < maxSteps
    · rw [if_pos hs]
      have hms : 1 ≤ maxSteps - st.steps := by
        unfold maxSteps at hs ⊢
        omega
      cases hb : loopBody gw env d { st with iters := st.iters + 1 } with
      | ret s st1 =>
        have := ((loopBody_track gw env d { st with iters := st.iters + 1 }).2.1 s st1 hb).2
        simp only at this
        simp [this]
        omega
      | raised st1 =>
        have := ((loopBody_track gw env d { st with iters := st.iters + 1 }).2.2.2 st1 hb).2.1
        simp only at this
        simp [this]
        omega
      | brk st1 =>
        have := ((loopBody_track gw env d { st with iters := st.iters + 1 }).2.2.1 st1 hb).2
        simp only at this
        simp [this]
        omega
      | next d1 st1 =>
        have hstep : st1.steps = st.steps + 1 := by
          have := ((loopBody_track gw env d { st with iters := st.iters + 1 }).1 d1 st1 hb).1
          simpa using this
        have hit : st1.iters = st.iters + 1 := by
          have := ((loopBody_track gw env d { st with iters := st.iters + 1 }).1 d1 st1 hb).2
          simpa using this
        have := ih d1 st1
        rw [hstep, hit] at this
        try dsimp only
        unfold maxSteps at this hs ⊢
        omega
    · rw [if_neg hs]
      simp

theorem loopGo_no_raise (gw : Gw) (env : Env)
    (hM : ∀ i, gw.model i ≠ MResp.mraise) (hT : ∀ j, gw.tool j ≠ TResp.traise) :
    ∀ f (d : NDecision) (st : St), (loopGo gw env f d st).out ≠ Outcome.raised := by
  intro f
  induction f with
  | zero =>
    intro d st
    simp [loopGo]
  | succ f ih =>
    intro d st
    simp only [loopGo]
    by_cases hs : st.steps < maxSteps
    · rw [if_pos hs]
      cases hb : loopBody gw env d { st with iters := st.iters + 1 } with
      | ret s st1 => simp
      | raised st1 =>
        exfalso
        have := ((loopBody_track gw env d { st with iters := st.iters + 1 }).2.2.2 st1 hb).2.2
        rcases this with ⟨i, hi⟩ | ⟨j, hj⟩
        · exact hM i hi
        · exact hT j hj
      | brk st1 => simp
      | next d1 st1 => exact ih d1 st1
    · rw [if_neg hs]
      simp

theorem initialPhase_ok_st (gw : Gw) (d : NDecision) (st : St)
    (h : initialPhase gw = InitOut.ok d st) : st.steps = 0 ∧ st.iters = 0 := by
  unfold initialPhase initialRepair at h
  cases hM : gw.model 0 with
  | mraise =>
    rw [hM] at h
    try dsimp only at h
    cases hM1 : gw.model (recordM initSt MPurpose.pInitial).mIdx with
    | mraise =>
      rw [hM1] at h
      try dsimp only at h
      exact InitOut.noConfusion h
    | mtext p =>
      rw [hM1] at h
      try dsimp only at h
      cases hD : decodeResp p with
      | none =>
        rw [hD] at h
        exact InitOut.noConfusion h
      | some d2 =>
        rw [hD] at h
        injection h with _ h2
        subst h2
        simp [recordM, initSt]
  | mtext p =>
    rw [hM] at h
    try dsimp only at h
    cases hD : decodeResp p with
    | some d2 =>
      rw [hD] at h
      injection h with _ h2
      subst h2
      simp [recordM, initSt]
    | none =>
      rw [hD] at h
      try dsimp only at h
      cases hM1 : gw.model (recordM initSt MPurpose.pInitial).mIdx with
      | mraise =>
        rw [hM1] at h
        try dsimp only at h
        exact InitOut.noConfusion h
      | mtext p2 =>
        rw [hM1] at h
        try dsimp only at h
        cases hD2 : decodeResp p2 with
        | none =>
          rw [hD2] at h
          exact InitOut.noConfusion h
        | some d2 =>
          rw [hD2] at h
          injection h with _ h2
          subst h2
          simp [recordM, initSt]

/-- Claim C1 is refuted by this run: with every model response malformed, the initial-repair normalization raises and agent_run propagates the exception instead of returning a string. -/
theorem C1_counterexample : (agent_run gwC1 envPlain).out = Outcome.raised := rfl

/-- Claim C1, amended: when no model-gateway call raises, no tool-gateway call raises, and the pre-loop handshake yields a decision, agent_run returns a string, and in total failure (a break with nothing captured) that string is the fixed apology. The unconditional form of the claim is false: handshake, argument-fix and next-decision chat failures and tool exceptions propagate. -/
theorem C1_amended (gw : Gw) (env : Env)
    (hM : ∀ i, gw.model i ≠ MResp.mraise) (hT : ∀ j, gw.tool j ≠ TResp.traise)
    (hOk : (initialPhase gw).isOk = true) :
    (∃ s, (agent_run gw env).out = Outcome.ret s) ∧
    (∀ st, st.sum_value = none → greetTruthy st.greet_msg = false →
      composeFinal env st = apologyText) := by
  constructor
  · unfold agent_run
    cases hI : initialPhase gw with
    | raised st =>
      rw [hI] at hOk
      simp [InitOut.isOk] at hOk
    | ok d st =>
      try dsimp only
      have hnr := loopGo_no_raise gw env hM hT maxSteps d st
      cases hout : (loopGo gw env maxSteps d st).out with
      | ret s => exact ⟨s, rfl⟩
      | raised => exact absurd hout hnr
  · intro st h1 h2
    unfold composeFinal
    rw [h1]
    cases hgm : st.greet_msg with
    | none => rfl
    | some g =>
      rw [hgm] at h2
      simp [greetTruthy] at h2
      simp [h2]

theorem C1_amended_witness : composeFinal envPlain initSt = apologyText :=
  (C1_amended gwC1w envPlain (fun i => by simp [gwC1w]) (fun j => by simp [gwC1w]) rfl).2
    initSt rfl rfl

theorem initialPhase_raised_st (gw : Gw) (st : St)
    (h : initialPhase gw = InitOut.raised st) : st.steps = 0 ∧ st.iters = 0 := by
  unfold initialPhase initialRepair at h
  cases hM : gw.model 0 with
  | mraise =>
    rw [hM] at h
    try dsimp only at h
    cases hM1 : gw.model (recordM initSt MPurpose.pInitial).mIdx with
    | mraise =>
      rw [hM1] at h
      try dsimp only at h
      injection h with h2
      subst h2
      simp [recordM, initSt]
    | mtext p =>
      rw [hM1] at h
      try dsimp only at h
      cases hD : decodeResp p with
      | none =>
        rw [hD] at h
        injection h with h2
        subst h2
        simp [recordM, initSt]
      | some d2 =>
        rw [hD] at h
        exact InitOut.noConfusion h
  | mtext p =>
    rw [hM] at h
    try dsimp only at h
    cases hD : decodeResp p with
    | some d2 =>
      rw [hD] at h
      exact InitOut.noConfusion h
    | none =>
      rw [hD] at h
      try dsimp only at h
      cases hM1 : gw.model (recordM initSt MPurpose.pInitial).mIdx with
      | mraise =>
        rw [hM1] at h
        try dsimp only at h
        injection h with h2
        subst h2
        simp [recordM, initSt]
      | mtext p2 =>
        rw [hM1] at h
        try dsimp only at h
        cases hD2 : decodeResp p2 with
        | none =>
          rw [hD2] at h
          injection h with h2
          subst h2
          simp [recordM, initSt]
        | some d2 =>
          rw [hD2] at h
          exact InitOut.noConfusion h

/-- Claim C2: the fuelled loop is fuel-independent beyond maxSteps (so the loop terminates and the fuel is an artifact), the iteration count never exceeds maxSteps = 5, and every loop iteration either returns, breaks, or increments the step counter by exactly one. -/
theorem C2_theorem :
    (∀ (gw : Gw) (env : Env) (f1 f2 : Nat) (d : NDecision) (st : St),
      maxSteps - st.steps ≤ f1 → maxSteps - st.steps ≤ f2 →
      loopGo gw env f1 d st = loopGo gw env f2 d st) ∧
    (∀ (gw : Gw) (env : Env), (agent_run gw env).st.iters ≤ maxSteps) ∧
    (∀ (gw : Gw) (env : Env) (d : NDecision) (st : St) (d1 : NDecision) (st1 : St),
      loopBody gw env d st = BodyOut.next d1 st1 → st1.steps = st.steps + 1) ∧
    (∀ (gw : Gw) (env : Env) (d : NDecision) (st : St) (s : String) (st1 : St),
      loopBody gw env d st = BodyOut.ret s st1 → st1.steps = st.steps) ∧
    (∀ (gw : Gw) (env : Env) (d : NDecision) (st : St) (st1 : St),
      loopBody gw env d st = BodyOut.brk st1 → st1.steps = st.steps) := by
  refine ⟨?_, ?_, ?_, ?_, ?_⟩
  · intro gw env f1 f2 d st h1 h2
    exact loopGo_fuel gw env f1 f2 d st h1 h2
  · intro gw env
    unfold agent_run
    cases hI : initialPhase gw with
    | raised st =>
      obtain ⟨_, hit⟩ := initialPhase_raised_st gw st hI
      simp [hit, maxSteps]
    | ok d st =>
      try dsimp only
      obtain ⟨hst, hit⟩ := initialPhase_ok_st gw d st hI
      have := loopGo_iters gw env maxSteps d st
      rw [hst, hit] at this
      simpa using this
  · intro gw env d st d1 st1 h
    exact ((loopBody_track gw env d st).1 d1 st1 h).1
  · intro gw env d st s st1 h
    exact ((loopBody_track gw env d st).2.1 s st1 h).1
  · intro gw env d st st1 h
    exact ((loopBody_track gw env d st).2.2.1 st1 h).1

theorem C2_witness : loopGo gwC1w envPlain 7 d0W initSt = loopGo gwC1w envPlain 11 d0W initSt :=
  C2_theorem.1 gwC1w envPlain 7 11 d0W initSt (by decide) (by decide)

/-- Claim C5 is refuted by this run: after the one repair the decision still names an unknown tool (bogus2), yet the loop invokes it and finally returns the model final GOTCHA rather than stopping with the apology. -/
theorem C5_counterexample :
    (agent_run gwC5 envPlain).out = Outcome.ret "GOTCHA" ∧
    (agent_run gwC5 envPlain).st.calls = [("bogus2", [])] ∧
    ¬ ("GOTCHA" = apologyText) := ⟨rfl, rfl, by decide⟩

/-- Claim C5, amended: exactly one repair chat is made per offending unknown-tool decision, and a repair whose reply raises or fails extraction/normalization breaks to the best-effort composition (the apology when nothing was captured); but a repaired decision that still references an unknown tool is executed without re-validation rather than stopped. -/
theorem C5_amended :
    (∀ (gw : Gw) (env : Env) (d : NDecision) (st : St) (d1 : NDecision),
      afterFinalGate env d st = Sum.inl d1 → knownTool env d1 = false →
      (loopBody gw env d st).state.mcalls.count MPurpose.pUnknownRepair =
        st.mcalls.count MPurpose.pUnknownRepair + 1) ∧
    (∀ (gw : Gw) (env : Env) (d : NDecision) (st : St) (d1 : NDecision),
      afterFinalGate env d st = Sum.inl d1 → knownTool env d1 = false →
      (gw.model st.mIdx = MResp.mraise ∨
        (∃ p, gw.model st.mIdx = MResp.mtext p ∧ decodeResp p = none)) →
      loopBody gw env d st = BodyOut.brk (recordM st MPurpose.pUnknownRepair)) ∧
    (∀ (gw : Gw) (env : Env) (f : Nat) (d : NDecision) (st st1 : St),
      st.steps < maxSteps →
      loopBody gw env d { st with iters := st.iters + 1 } = BodyOut.brk st1 →
      loopGo gw env (f + 1) d st = ⟨Outcome.ret (composeFinal env st1), st1⟩) ∧
    (∀ (env : Env) (st : St), st.sum_value = none → greetTruthy st.greet_msg = false →
      composeFinal env st = apologyText) := by
  refine ⟨?_, ?_, ?_, ?_⟩
  · intro gw env d st d1 h hk
    exact (loopBody_repair gw env d st).2.2.1 d1 h hk
  · intro gw env d st d1 h hk hf
    exact (loopBody_repair gw env d st).2.2.2 d1 h hk hf
  · intro gw env f d st st1 hs hb
    simp only [loopGo]
    rw [if_pos hs, hb]
  · intro env st h1 h2
    unfold composeFinal
    rw [h1]
    cases hgm : st.greet_msg with
    | none => rfl
    | some g =>
      rw [hgm] at h2
      simp [greetTruthy] at h2
      simp [h2]

theorem C5_amended_witness :
    loopBody gwC1 envPlain (NDecision.toolCall "bogus" []) initSt =
      BodyOut.brk (recordM initSt MPurpose.pUnknownRepair) :=
  C5_amended.2.1 gwC1 envPlain (NDecision.toolCall "bogus" []) initSt
    (NDecision.toolCall "bogus" []) rfl (by decide) (Or.inr ⟨none, rfl, rfl⟩)

theorem finalGate_inr (env : Env) (st : St) (f s : String)
    (h : finalGate env st f = Sum.inr s) : s = composeInLoop env st f := by
  unfold finalGate at h
  split_ifs at h
  injection h with h1
  exact h1.symm

/-- Claim C3 is refuted by this run: the model declares final inside the loop after a greeting was captured and no sum, and the run returns the model final verbatim instead of the greeting. -/
theorem C3_counterexample :
    (agent_run gwC3 envPlain).out = Outcome.ret "FINAL-TEXT" ∧
    (agent_run gwC3 envPlain).st.sum_value = none ∧
    (agent_run gwC3 envPlain).st.greet_msg = some "Hello from server!" ∧
    ¬ ("FINAL-TEXT" = "Hello from server!") := ⟨rfl, rfl, rfl, by decide⟩

/-- Claim C3, amended: the fall-through composition composeFinal follows the full priority (sum and truthy greeting combined; sum alone; truthy greeting alone; otherwise the apology), while the in-loop final path composes sum with a truthy greeting or sum alone but returns the model final verbatim whenever no sum was captured, with no greeting-only branch. -/
theorem C3_amended :
    (∀ (env : Env) (st : St) (x : PyFloat) (g : String), st.sum_value = some x →
      st.greet_msg = some g → ¬ (g = "") →
      composeFinal env st = sumText env x ++ ". " ++ g) ∧
    (∀ (env : Env) (st : St) (x : PyFloat), st.sum_value = some x →
      greetTruthy st.greet_msg = false → composeFinal env st = sumText env x) ∧
    (∀ (env : Env) (st : St) (g : String), st.sum_value = none →
      st.greet_msg = some g → ¬ (g = "") → composeFinal env st = g) ∧
    (∀ (env : Env) (st : St), st.sum_value = none →
      greetTruthy st.greet_msg = false → composeFinal env st = apologyText) ∧
    (∀ (env : Env) (st : St) (f s : String), finalGate env st f = Sum.inr s →
      st.sum_value = none → s = f) ∧
    (∀ (env : Env) (st : St) (f s : String) (x : PyFloat) (g : String),
      finalGate env st f = Sum.inr s → st.sum_value = some x → st.greet_msg = some g →
      ¬ (g = "") → s = sumText env x ++ ". " ++ g) ∧
    (∀ (env : Env) (st : St) (f s : String) (x : PyFloat),
      finalGate env st f = Sum.inr s → st.sum_value = some x →
      greetTruthy st.greet_msg = false → s = sumText env x) := by
  refine ⟨?_, ?_, ?_, ?_, ?_, ?_, ?_⟩
  · intro env st x g h1 h2 h3
    unfold composeFinal
    rw [h1, h2]
    simp [h3]
  · intro env st x h1 h2
    unfold composeFinal
    rw [h1]
    cases hgm : st.greet_msg with
    | none => rfl
    | some g =>
      rw [hgm] at h2
      simp [greetTruthy] at h2
      simp [h2]
  · intro env st g h1 h2 h3
    unfold composeFinal
    rw [h1, h2]
    simp [h3]
  · intro env st h1 h2
    unfold composeFinal
    rw [h1]
    cases hgm : st.greet_msg with
    | none => rfl
    | some g =>
      rw [hgm] at h2
      simp [greetTruthy] at h2
      simp [h2]
  · intro env st f s h h1
    rw [finalGate_inr env st f s h]
    unfold composeInLoop
    rw [h1]
  · intro env st f s x g h h1 h2 h3
    rw [finalGate_inr env st f s h]
    unfold composeInLoop
    rw [h1, h2]
    simp [h3]
  · intro env st f s x h h1 h2
    rw [finalGate_inr env st f s h]
    unfold composeInLoop
    rw [h1]
    cases hgm : st.greet_msg with
    | none => rfl
    | some g =>
      rw [hgm] at h2
      simp [greetTruthy] at h2
      simp [h2]

theorem C3_amended_witness : composeFinal envPlain stG3 = "hey" :=
  C3_amended.2.2.1 envPlain stG3 "hey" rfl rfl (by decide)

/-- Claim C10: an empty say_hello observation is recorded as an empty greeting, which disables the mandatory-greeting override (a None test) while every composition treats the greeting as absent (a truthiness test), so such a run can return a sum-only final or the apology despite a successful greeting invocation; the concrete run exhibits the apology with the greeting tool invoked. -/
theorem C10_theorem :
    (∀ st : St, capture "say_hello" "" st = { st with greet_msg := some "" }) ∧
    (∀ (env : Env) (st : St) (f : String), st.greet_msg = some "" →
      finalGate env st f = Sum.inr (composeInLoop env st f)) ∧
    (∀ (env : Env) (st : St), st.greet_msg = some "" → st.sum_value = none →
      composeFinal env st = apologyText) ∧
    (∀ (env : Env) (st : St) (x : PyFloat), st.greet_msg = some "" →
      st.sum_value = some x → composeFinal env st = sumText env x) ∧
    ((agent_run gwC10 envGreet).out = Outcome.ret apologyText ∧
      (agent_run gwC10 envGreet).st.calls = [("say_hello", [])]) := by
  refine ⟨?_, ?_, ?_, ?_, rfl, rfl⟩
  · intro st
    rfl
  · intro env st f h
    unfold finalGate
    rw [if_neg]
    intro hcon
    rw [h] at hcon
    exact Option.noConfusion hcon.2
  · intro env st h1 h2
    unfold composeFinal
    rw [h1, h2]
    simp
  · intro env st x h1 h2
    unfold composeFinal
    rw [h1, h2]
    simp

theorem C10_witness : composeFinal envPlain stE10 = apologyText :=
  C10_theorem.2.2.1 envPlain stE10 rfl rfl

theorem C4_override (env : Env) (st : St) (f : String) (hg : mustGreet env.user_input = true)
    (hn : st.greet_msg = none) :
    afterFinalGate env (NDecision.final f) st = Sum.inl (NDecision.toolCall "say_hello" []) := by
  unfold afterFinalGate finalGate
  try dsimp only
  rw [if_pos ⟨hg, hn⟩]

theorem decode_jFinal (f : String) :
    decodeResp (some (jFinal f)) = some (NDecision.final f) := rfl

theorem loopGo_succ (gw : Gw) (env : Env) (f : Nat) (d : NDecision) (st : St) :
    loopGo gw env (f + 1) d st =
      if st.steps < maxSteps then
        match loopBody gw env d { st with iters := st.iters + 1 } with
        | BodyOut.ret s st1 => ⟨Outcome.ret s, st1⟩
        | BodyOut.raised st1 => ⟨Outcome.raised, st1⟩
        | BodyOut.brk st1 => ⟨Outcome.ret (composeFinal env st1), st1⟩
        | BodyOut.next d1 st1 => loopGo gw env f d1 st1
      else ⟨Outcome.ret (composeFinal env st), st⟩ := rfl

theorem C4_scenario (gw : Gw) (env : Env) (hg : mustGreet env.user_input = true)
    (ha : env.allowed.contains "say_hello" = true)
    (hm : ∀ i, ∃ f, gw.model i = MResp.mtext (some (jFinal f)))
    (ht : ∀ j, ∃ s, gw.tool j = TResp.tobs s) :
    (agent_run gw env).st.calls.map Prod.fst = ["say_hello"] ∧
      ∃ s, (agent_run gw env).out = Outcome.ret s := by
  obtain ⟨f0, h0⟩ := hm 0
  obtain ⟨f1, h1⟩ := hm 1
  obtain ⟨s0, ht0⟩ := ht 0
  have hInit : initialPhase gw = InitOut.ok (NDecision.final f0)
      (recordM initSt MPurpose.pInitial) := by
    unfold initialPhase
    rw [h0]
    try dsimp only
    rw [decode_jFinal f0]
  have hknown : knownTool env (NDecision.toolCall "say_hello" []) = true := by
    simp only [knownTool, nameOf]
    exact ha
  have hcanon : canonicalize_args "say_hello" [] env.user_input = [] := by
    simp [canonicalize_args]
  have hcap : ∀ st : St, capture "say_hello" s0 st = { st with greet_msg := some s0 } := by
    intro st
    simp [capture]
  have hb1 : loopBody gw env (NDecision.final f0)
      ⟨1, 0, 0, 1, none, none, [], [MPurpose.pInitial]⟩ =
      BodyOut.next (NDecision.final f1)
      ⟨2, 1, 1, 1, none, some s0, [("say_hello", [])],
        [MPurpose.pInitial, MPurpose.pNext]⟩ := by
    unfold loopBody
    rw [C4_override env _ f0 hg rfl]
    try dsimp only
    rw [if_pos hknown]
    unfold execPhase
    try dsimp only
    rw [hcanon]
    try dsimp only
    rw [if_neg (by decide)]
    unfold execCall
    try dsimp only
    rw [if_neg (by decide)]
    simp only [recordT]
    try dsimp only
    rw [ht0]
    try dsimp only
    rw [hcap]
    try dsimp only
    rw [if_neg (fun hcon => Option.noConfusion hcon.2)]
    simp only [recordM]
    try dsimp only
    rw [h1]
    try dsimp only
    rw [decode_jFinal f1]
    rfl
  have hb2 : loopBody gw env (NDecision.final f1)
      ⟨2, 1, 1, 2, none, some s0, [("say_hello", [])],
        [MPurpose.pInitial, MPurpose.pNext]⟩ =
      BodyOut.ret f1
      ⟨2, 1, 1, 2, none, some s0, [("say_hello", [])],
        [MPurpose.pInitial, MPurpose.pNext]⟩ := by
    unfold loopBody afterFinalGate finalGate
    try dsimp only
    rw [if_neg (fun hcon => Option.noConfusion hcon.2)]
    rfl
  have hrun : agent_run gw env =
      ⟨Outcome.ret f1,
        ⟨2, 1, 1, 2, none, some s0, [("say_hello", [])],
          [MPurpose.pInitial, MPurpose.pNext]⟩⟩ := by
    unfold agent_run
    rw [hInit]
    try dsimp only
    rw [show recordM initSt MPurpose.pInitial =
      (⟨1, 0, 0, 0, none, none, [], [MPurpose.pInitial]⟩ : St) from rfl]
    rw [show maxSteps = 4 + 1 from rfl, loopGo_succ]
    rw [if_pos (by decide)]
    try dsimp only
    rw [show (0 + 1 : Nat) = 1 from rfl]
    rw [hb1]
    try dsimp only
    rw [loopGo_succ]
    rw [if_pos (by simp [maxSteps])]
    try dsimp only
    rw [show (1 + 1 : Nat) = 2 from rfl]
    rw [hb2]
  rw [hrun]
  exact ⟨rfl, f1, rfl⟩

/-- Claim C4: when the mandatory-greeting condition holds and no greeting has been captured, every final decision is overridden into a forced say_hello tool call before being honored; consequently, a model that always answers final drives exactly one greeting tool invocation before the run finalizes. -/
theorem C4_claim (gw : Gw) (env : Env) (hg : mustGreet env.user_input = true)
    (ha : env.allowed.contains "say_hello" = true) :
    (∀ st f, st.greet_msg = none →
        afterFinalGate env (NDecision.final f) st =
          Sum.inl (NDecision.toolCall "say_hello" [])) ∧
    ((∀ i, ∃ f, gw.model i = MResp.mtext (some (jFinal f))) →
      (∀ j, ∃ s, gw.tool j = TResp.tobs s) →
      (agent_run gw env).st.calls.map Prod.fst = ["say_hello"] ∧
        ∃ s, (agent_run gw env).out = Outcome.ret s) :=
  ⟨fun st f hn => C4_override env st f hg hn,
   fun hm ht => C4_scenario gw env hg ha hm ht⟩

theorem C4_witness :
    (agent_run gwC1w envGreet).st.calls.map Prod.fst = ["say_hello"] ∧
      ∃ s, (agent_run gwC1w envGreet).out = Outcome.ret s :=
  (C4_claim gwC1w envGreet (by decide) (by decide)).2
    (fun _ => ⟨"done", rfl⟩) (fun _ => ⟨"x", rfl⟩)

theorem closeAt_sound : ∀ (cs : List Char) (i d j : Nat), 1 ≤ d → closeAt cs i d = some j →
    ∃ k, j = i + k ∧ k < cs.length ∧ (d : Int) + bnet (cs.take (k + 1)) = 0 ∧
      ∀ m, m ≤ k → 0 < (d : Int) + bnet (cs.take m)
  | [], i, d, j, hd, h => by simp [closeAt] at h
  | c :: cs, i, d, j, hd, h => by
    rw [closeAt.eq_def] at h
    try dsimp only at h
    by_cases hc : c = '{'
    · rw [if_pos hc] at h
      obtain ⟨k, hk, hlen, hz, hpos⟩ := closeAt_sound cs (i + 1) (d + 1) j (by omega) h
      refine ⟨k + 1, by omega, by simp; omega, ?_, ?_⟩
      · simp [List.take_succ_cons, bnet, braceD, hc]
        push_cast at hz
        omega
      · intro m hm
        cases m with
        | zero => simp [bnet]; omega
        | succ m' =>
          have := hpos m' (by omega)
          simp [List.take_succ_cons, bnet, braceD, hc]
          push_cast at this
          omega
    · rw [if_neg hc] at h
      by_cases hc2 : c = '}'
      · rw [if_pos hc2] at h
        by_cases hd1 : d = 1
        · rw [if_pos hd1] at h
          have hij : j = i := by
            injection h with h2
            omega
          refine ⟨0, by omega, by simp, ?_, ?_⟩
          · simp [List.take_succ_cons, bnet, braceD, hc, hc2, hd1]
          · intro m hm
            interval_cases m
            simp [bnet]
            omega
        · rw [if_neg hd1] at h
          obtain ⟨k, hk, hlen, hz, hpos⟩ := closeAt_sound cs (i + 1) (d - 1) j (by omega) h
          refine ⟨k + 1, by omega, by simp; omega, ?_, ?_⟩
          · simp [List.take_succ_cons, bnet, braceD, hc, hc2]
            have hd2 : (2 : Nat) ≤ d := by omega
            have : ((d - 1 : Nat) : Int) = (d : Int) - 1 := by omega
            rw [this] at hz
            omega
          · intro m hm
            cases m with
            | zero => simp [bnet]; omega
            | succ m' =>
              have h2 := hpos m' (by omega)
              simp [List.take_succ_cons, bnet, braceD, hc, hc2]
              have : ((d - 1 : Nat) : Int) = (d : Int) - 1 := by omega
              rw [this] at h2
              omega
      · rw [if_neg hc2] at h
        obtain ⟨k, hk, hlen, hz, hpos⟩ := closeAt_sound cs (i + 1) d j hd h
        refine ⟨k + 1, by omega, by simp; omega, ?_, ?_⟩
        · simp [List.take_succ_cons, bnet, braceD, hc, hc2]
          omega
        · intro m hm
          cases m with
          | zero => simp [bnet]; omega
          | succ m' =>
            have h2 := hpos m' (by omega)
            simp [List.take_succ_cons, bnet, braceD, hc, hc2]
            omega

theorem closeAt_complete : ∀ (cs : List Char) (i d : Nat), 1 ≤ d →
    (∃ k, k < cs.length ∧ (d : Int) + bnet (cs.take (k + 1)) = 0 ∧
      ∀ m, m ≤ k → 0 < (d : Int) + bnet (cs.take m)) →
    ∃ j, closeAt cs i d = some j
  | [], _, _, _, ⟨_, hlen, _, _⟩ => absurd hlen (by simp)
  | c :: cs, i, d, hd, ⟨k, hlen, hz, hpos⟩ => by
    rw [closeAt.eq_def]
    try dsimp only
    by_cases hc : c = '{'
    · rw [if_pos hc]
      apply closeAt_complete cs (i + 1) (d + 1) (by omega)
      cases k with
      | zero =>
        exfalso
        simp [bnet, braceD, hc] at hz
        omega
      | succ k2 =>
        refine ⟨k2, by simp at hlen; omega, ?_, ?_⟩
        · simp [List.take_succ_cons, bnet, braceD, hc] at hz
          omega
        · intro m hm
          have h2 := hpos (m + 1) (by omega)
          simp [List.take_succ_cons, bnet, braceD, hc] at h2
          omega
    · rw [if_neg hc]
      by_cases hc2 : c = '}'
      · rw [if_pos hc2]
        by_cases hd1 : d = 1
        · rw [if_pos hd1]
          exact ⟨i, rfl⟩
        · rw [if_neg hd1]
          apply closeAt_complete cs (i + 1) (d - 1) (by omega)
          cases k with
          | zero =>
            exfalso
            simp [bnet, braceD, hc, hc2] at hz
            omega
          | succ k2 =>
            refine ⟨k2, by simp at hlen; omega, ?_, ?_⟩
            · simp [List.take_succ_cons, bnet, braceD, hc, hc2] at hz
              omega
            · intro m hm
              have h2 := hpos (m + 1) (by omega)
              simp [List.take_succ_cons, bnet, braceD, hc, hc2] at h2
              omega
      · rw [if_neg hc2]
        apply closeAt_complete cs (i + 1) d hd
        cases k with
        | zero =>
          exfalso
          simp [bnet, braceD, hc, hc2] at hz
          omega
        | succ k2 =>
          refine ⟨k2, by simp at hlen; omega, ?_, ?_⟩
          · simp [List.take_succ_cons, bnet, braceD, hc, hc2] at hz
            omega
          · intro m hm
            have h2 := hpos (m + 1) (by omega)
            simp [List.take_succ_cons, bnet, braceD, hc, hc2] at h2
            omega

theorem extractGo_skip : ∀ (pre rest : List Char) (i : Nat), '{' ∉ pre →
    extractGo (pre ++ rest) i 0 none = extractGo rest (i + pre.length) 0 none
  | [], rest, i, _ => by simp
  | c :: pre, rest, i, hpre => by
    have hc : ¬ (c = '{') := fun h => hpre (by simp [h])
    have hrec : extractGo (pre ++ rest) (i + 1) 0 none =
        extractGo rest ((i + 1) + pre.length) 0 none :=
      extractGo_skip pre rest (i + 1) (fun h => hpre (List.mem_cons_of_mem c h))
    have hlen : (i + 1) + pre.length = i + (c :: pre).length := by simp; omega
    rw [List.cons_append, extractGo.eq_def]
    try dsimp only
    rw [if_neg (by simp [hc])]
    by_cases hc2 : c = '}'
    · rw [if_pos (by simp [hc2])]
      rw [if_neg (by omega)]
      rw [hrec, hlen]
    · rw [if_neg (by simp [hc2])]
      rw [hrec, hlen]

theorem extractGo_enter (rest : List Char) (i : Nat) :
    extractGo ('{' :: rest) i 0 none = extractGo rest (i + 1) 1 (some i) := rfl

theorem extractGo_close : ∀ (cs : List Char) (i d s0 : Nat), 1 ≤ d →
    extractGo cs i d (some s0) =
      (match closeAt cs i d with
       | some j => some (s0, j + 1)
       | none => none)
  | [], _, _, _, _ => rfl
  | c :: cs, i, d, s0, hd => by
    rw [extractGo.eq_def, closeAt.eq_def]
    try dsimp only
    by_cases hc : c = '{'
    · rw [if_pos (by simp [hc]), if_pos hc]
      rw [if_neg (by simp; omega)]
      exact extractGo_close cs (i + 1) (d + 1) s0 (by omega)
    · rw [if_neg (by simp [hc]), if_neg hc]
      by_cases hc2 : c = '}'
      · rw [if_pos (by simp [hc2]), if_pos hc2]
        rw [if_pos (by omega)]
        by_cases hd1 : d = 1
        · rw [if_pos (by simp [hd1]), if_pos hd1]
        · rw [if_neg (by simp [hd1]), if_neg hd1]
          exact extractGo_close cs (i + 1) (d - 1) s0 (by omega)
      · rw [if_neg (by simp [hc2]), if_neg hc2]
        exact extractGo_close cs (i + 1) d s0 hd

theorem split_first : ∀ (t : List Char),
    ('{' ∉ t) ∨ ∃ pre rest, t = pre ++ '{' :: rest ∧ '{' ∉ pre
  | [] => Or.inl (by simp)
  | c :: t => by
    by_cases hc : c = '{'
    · exact Or.inr ⟨[], t, by simp [hc], by simp⟩
    · cases split_first t with
      | inl h =>
        refine Or.inl ?_
        intro hm
        rcases List.mem_cons.mp hm with h2 | h2
        · exact hc h2.symm
        · exact h h2
      | inr h =>
        obtain ⟨pre, rest, heq, hpre⟩ := h
        refine Or.inr ⟨c :: pre, rest, by simp [heq], ?_⟩
        intro hm
        rcases List.mem_cons.mp hm with h2 | h2
        · exact hc h2.symm
        · exact hpre h2

theorem split_first_unique : ∀ (p1 p2 r1 r2 : List Char), '{' ∉ p1 → '{' ∉ p2 →
    p1 ++ '{' :: r1 = p2 ++ '{' :: r2 → p1 = p2 ∧ r1 = r2
  | [], [], r1, r2, _, _, h => by
    simp at h
    exact ⟨rfl, h⟩
  | [], c :: p2, r1, r2, h1, h2, h => by
    exfalso
    simp at h
    exact h2 (by simp [h.1.symm])
  | c :: p1, [], r1, r2, h1, h2, h => by
    exfalso
    simp at h
    exact h1 (by simp [h.1])
  | c1 :: p1, c2 :: p2, r1, r2, h1, h2, h => by
    simp only [List.cons_append, List.cons.injEq] at h
    obtain ⟨rfl, h⟩ := h
    obtain ⟨hp, hr⟩ := split_first_unique p1 p2 r1 r2
      (fun hm => h1 (List.mem_cons_of_mem _ hm))
      (fun hm => h2 (List.mem_cons_of_mem _ hm)) h
    exact ⟨by rw [hp], hr⟩

theorem take_append_le {α : Type} : ∀ (l1 l2 : List α) (n : Nat), n ≤ l1.length →
    (l1 ++ l2).take n = l1.take n
  | _, _, 0, _ => by simp
  | [], _, n + 1, h => by simp at h
  | a :: l1, l2, n + 1, h => by
    simp only [List.cons_append, List.take_succ_cons]
    rw [take_append_le l1 l2 n (by simp at h; omega)]

theorem braceD_open : braceD '{' = 1 := rfl

theorem braceD_close : braceD '}' = -1 := rfl

theorem extractGo_main (t : List Char) :
    (∀ a b, extractGo t 0 0 none = some (a, b) →
       ∃ pre post, t = pre ++ (t.drop a).take (b - a) ++ post ∧ '{' ∉ pre ∧
         IsBalBlock ((t.drop a).take (b - a))) ∧
    (extractGo t 0 0 none = none ↔
       ¬ ∃ pre mid post, t = pre ++ mid ++ post ∧ '{' ∉ pre ∧ IsBalBlock mid) := by
  rcases split_first t with hno | h
  · have h0 : extractGo t 0 0 none = none := by
      have h := extractGo_skip t [] 0 hno
      rw [List.append_nil] at h
      exact h
    constructor
    · intro a b hab
      rw [h0] at hab
      exact Option.noConfusion hab
    · constructor
      · intro _ hex
        obtain ⟨pre, mid, post, heq2, _, hbal⟩ := hex
        obtain ⟨hhead, _, _⟩ := hbal
        cases mid with
        | nil => simp at hhead
        | cons c mid2 =>
          have hc : c = '{' := by simpa using hhead
          exact hno (by rw [heq2, hc]; simp)
      · intro _
        exact h0
  · obtain ⟨pre0, rest, heq, hpre0⟩ := h
    have hgo : extractGo t 0 0 none =
        (match closeAt rest (pre0.length + 1) 1 with
         | some j => some (pre0.length, j + 1)
         | none => none) := by
      rw [heq, extractGo_skip pre0 ('{' :: rest) 0 hpre0]
      rw [show 0 + pre0.length = pre0.length from by omega]
      rw [extractGo_enter]
      exact extractGo_close rest (pre0.length + 1) 1 pre0.length (by omega)
    cases hclose : closeAt rest (pre0.length + 1) 1 with
    | some j =>
      rw [hclose] at hgo
      try dsimp only at hgo
      obtain ⟨k, hk, hlen, hz, hpos⟩ :=
        closeAt_sound rest (pre0.length + 1) 1 j (by omega) hclose
      have hslice : (t.drop pre0.length).take (j + 1 - pre0.length) =
          '{' :: rest.take (k + 1) := by
        rw [heq, List.drop_left]
        rw [show j + 1 - pre0.length = (k + 1) + 1 from by omega]
        rw [List.take_succ_cons]
      have hblock : IsBalBlock ('{' :: rest.take (k + 1)) := by
        refine ⟨rfl, ?_, ?_⟩
        · simp only [bnet, braceD_open]
          omega
        · intro m hm0 hmlen
          have hlen2 : (rest.take (k + 1)).length = k + 1 := by
            rw [List.length_take]
            omega
          cases m with
          | zero => omega
          | succ m2 =>
            have hm2 : m2 ≤ k := by
              simp only [List.length_cons, hlen2] at hmlen
              omega
            have h2 := hpos m2 (by omega)
            rw [List.take_succ_cons]
            have htt : (rest.take (k + 1)).take m2 = rest.take m2 := by
              rw [List.take_take]
              congr 1
              omega
            rw [htt]
            simp only [bnet, braceD_open]
            omega
      have hdec : t = pre0 ++ ('{' :: rest.take (k + 1)) ++ rest.drop (k + 1) := by
        rw [heq]
        simp [List.take_append_drop]
      constructor
      · intro a b hab
        rw [hgo] at hab
        have hab2 : pre0.length = a ∧ j + 1 = b := by
          simpa using hab
        obtain ⟨ha, hb⟩ := hab2
        subst ha
        subst hb
        refine ⟨pre0, rest.drop (k + 1), ?_, hpre0, ?_⟩
        · rw [hslice]
          exact hdec
        · rw [hslice]
          exact hblock
      · constructor
        · intro h2
          rw [hgo] at h2
          exact Option.noConfusion h2
        · intro hni
          exact absurd ⟨pre0, '{' :: rest.take (k + 1), rest.drop (k + 1),
            hdec, hpre0, hblock⟩ hni
    | none =>
      rw [hclose] at hgo
      try dsimp only at hgo
      constructor
      · intro a b hab
        rw [hgo] at hab
        exact Option.noConfusion hab
      · constructor
        · intro _ hex
          obtain ⟨pre, mid, post, heq2, hpre, hbal⟩ := hex
          obtain ⟨hhead, hb0, hbpos⟩ := hbal
          cases mid with
          | nil => simp at hhead
          | cons c mid2 =>
            have hc : c = '{' := by simpa using hhead
            subst hc
            have heq3 : pre0 ++ '{' :: rest = pre ++ '{' :: (mid2 ++ post) := by
              rw [← heq, heq2]
              simp
            obtain ⟨hpp, hrr⟩ :=
              split_first_unique pre0 pre rest (mid2 ++ post) hpre0 hpre heq3
            have hb1 : bnet mid2 = -1 := by
              simp only [bnet, braceD_open] at hb0
              omega
            have hL : 1 ≤ mid2.length := by
              cases mid2 with
              | nil =>
                exfalso
                simp [bnet] at hb1
              | cons _ _ => simp
            have hex2 : ∃ k2, k2 < rest.length ∧
                ((1 : Nat) : Int) + bnet (rest.take (k2 + 1)) = 0 ∧
                ∀ m, m ≤ k2 → 0 < ((1 : Nat) : Int) + bnet (rest.take m) := by
              refine ⟨mid2.length - 1, ?_, ?_, ?_⟩
              · rw [hrr]
                simp
                omega
              · rw [hrr]
                rw [show mid2.length - 1 + 1 = mid2.length from by omega]
                rw [take_append_le mid2 post mid2.length (by omega)]
                rw [List.take_length]
                omega
              · intro m hm
                rw [hrr]
                rw [take_append_le mid2 post m (by omega)]
                have h3 := hbpos (m + 1) (by omega) (by simp; omega)
                rw [List.take_succ_cons] at h3
                simp only [bnet, braceD_open] at h3
                omega
            obtain ⟨j2, hj2⟩ :=
              closeAt_complete rest (pre0.length + 1) 1 (by omega) hex2
            rw [hclose] at hj2
            exact Option.noConfusion hj2
        · intro _
          exact hgo

/-- Claim C6: extraction, applied after fence and prose stripping, succeeds exactly when the stripped text decomposes as an open-brace-free prefix followed by a balanced brace block, and on success it returns precisely the substring spanning the first such top-level balanced block; on any text with no complete balanced object, including unmatched braces, it fails. -/
theorem C6_claim (s : String) :
    (∀ r, extract_first_json_object s = some r →
        ∃ pre post, strip_fences_and_prose s.data = pre ++ r.data ++ post ∧
          '{' ∉ pre ∧ IsBalBlock r.data) ∧
    (extract_first_json_object s = none ↔
        ¬ ∃ pre mid post, strip_fences_and_prose s.data = pre ++ mid ++ post ∧
            '{' ∉ pre ∧ IsBalBlock mid) := by
  have hmain := extractGo_main (strip_fences_and_prose s.data)
  have hform : extract_first_json_object s =
      (match extractGo (strip_fences_and_prose s.data) 0 0 none with
       | some (a, b) =>
         some (String.mk (((strip_fences_and_prose s.data).drop a).take (b - a)))
       | none => none) := rfl
  cases hgo : extractGo (strip_fences_and_prose s.data) 0 0 none with
  | none =>
    rw [hgo] at hform
    try dsimp only at hform
    constructor
    · intro r hr
      rw [hform] at hr
      exact Option.noConfusion hr
    · rw [hform]
      exact ⟨fun _ => hmain.2.mp hgo, fun _ => rfl⟩
  | some p =>
    obtain ⟨a, b⟩ := p
    rw [hgo] at hform
    try dsimp only at hform
    constructor
    · intro r hr
      rw [hform] at hr
      have hr2 : String.mk (((strip_fences_and_prose s.data).drop a).take (b - a)) = r := by
        simpa using hr
      obtain ⟨pre, post, hdec, hpre, hbal⟩ := hmain.1 a b hgo
      exact ⟨pre, post, by rw [← hr2]; exact hdec, hpre, by rw [← hr2]; exact hbal⟩
    · constructor
      · intro h2
        rw [hform] at h2
        exact Option.noConfusion h2
      · intro hni
        exfalso
        have h3 := hmain.2.mpr hni
        rw [hgo] at h3
        exact Option.noConfusion h3

theorem C6_witness :
    ∃ pre post,
      strip_fences_and_prose "noise \x7b \x7b\x7d \x7d more".data =
        pre ++ "\x7b \x7b\x7d \x7d".data ++ post ∧
      '{' ∉ pre ∧ IsBalBlock "\x7b \x7b\x7d \x7d".data :=
  (C6_claim "noise \x7b \x7b\x7d \x7d more").1 "\x7b \x7b\x7d \x7d" rfl

end AgentModel
